import Mathlib

/-!
Verification of the `ietfparse` header-parsing library against its
natural-language specification.

The Python sources are shallowly embedded: Python `str` is `List Char`,
Python exceptions are an explicit `PyError` in `Except`, Python `float`
values of quality parameters are modelled as exact rationals `ℚ`
(all quality literals appearing in the code are short decimal strings, so
ordering and equality comparisons agree with their IEEE counterparts in
the relevant range; `inf`/`nan` literals are not modelled), and Python's
stable sorts are modelled as stable insertion sorts.

Where the repository holds two snapshots of a module, the embedding
follows the newer snapshot (`src/src/ietfparse/...`), which is the one
the specification was written from; `algorithms.py` exists only in the
older snapshot and is embedded from there.
-/

namespace Ietf

/-- Python `str` as a list of characters. -/
abbrev Str := List Char

/-- Coerce a Lean string literal to the embedding's string type. -/
def pstr (s : String) : Str := s.data

/-- A `for` loop building a list, aborting at the first exception. -/
def mapE (f : α → Except ε β) : List α → Except ε (List β)
  | [] => .ok []
  | a :: l => do
    let b ← f a
    let bs ← mapE f l
    pure (b :: bs)

/-- A `for` loop threading an accumulator, aborting at the first
exception. -/
def foldE (f : σ → α → Except ε σ) : σ → List α → Except ε σ
  | s, [] => .ok s
  | s, a :: l => do foldE f (← f s a) l

/-- Python exceptions that the embedded code can raise. -/
inductive PyError where
  | indexError
  | valueError
  | malformedContentType
  | malformedLinkValue
  | noMatch
  | invalidArgument
  | strictHeaderFailure
  deriving DecidableEq, Repr

deriving instance DecidableEq for Except

/-- `ValueError` and its subclass `MalformedContentType`
(via `StrictHeaderParsingFailure`) are caught by `except ValueError`. -/
def PyError.isValueError : PyError → Bool
  | .valueError => true
  | .malformedContentType => true
  | .strictHeaderFailure => true
  | _ => false

/-- Python `str.lower` restricted to ASCII (all header tokens are ASCII). -/
def pyLower (s : Str) : Str := s.map Char.toLower

/-- The characters stripped by Python `str.strip()` (and matched by `\s`). -/
def isPySpace (c : Char) : Bool :=
  c = ' ' || c = '\t' || c = '\n' || c = '\r' || c = '\x0b' || c = '\x0c'

/-- Python `str.lstrip()`. -/
def lstrip (s : Str) : Str := s.dropWhile isPySpace

/-- Python `str.rstrip()`, via reversal. -/
def rstrip (s : Str) : Str := ((s.reverse).dropWhile isPySpace).reverse

/-- Python `str.strip()`. -/
def strip (s : Str) : Str := rstrip (lstrip s)

/-- Python `str.split(sep)` for a one-character separator:
the empty string yields `['']`, and empty pieces are kept. -/
def splitOn (sep : Char) : Str → List Str
  | [] => [[]]
  | c :: rest =>
    if c = sep then [] :: splitOn sep rest
    else
      match splitOn sep rest with
      | s :: ss => (c :: s) :: ss
      | [] => [[c]]

/-- Python `str.replace(a, b)` for one-character arguments. -/
def replaceChar (a b : Char) (s : Str) : Str :=
  s.map fun c => if c = a then b else c

/-- Python `str.replace(a, '')` for a one-character argument. -/
def removeAllChar (a : Char) (s : Str) : Str := s.filter (· ≠ a)

/-- First index at which `needle` occurs in `hay`, if any. -/
def findSub (needle : Str) : Str → Option Nat
  | [] => if needle = [] then some 0 else none
  | c :: rest =>
    if needle.isPrefixOf (c :: rest) then some 0
    else (findSub needle rest).map (· + 1)

/-- Python `str.partition(needle)`: splits at the first occurrence of
`needle`; raises `ValueError` on an empty separator. -/
def partitionStr (needle s : Str) : Except PyError (Str × Str × Str) :=
  if needle = [] then .error .valueError
  else
    match findSub needle s with
    | some i => .ok (s.take i, needle, s.drop (i + needle.length))
    | none => .ok (s, [], [])

/-- Python `str.partition(c)` for a one-character separator (never raises). -/
def partitionChar (sep : Char) (s : Str) : Str × Str × Str :=
  match findSub [sep] s with
  | some i => (s.take i, [sep], s.drop (i + 1))
  | none => (s, [], [])

/-- Python lexicographic `<` on strings (by code point). -/
def strLt : Str → Str → Bool
  | [], [] => false
  | [], _ :: _ => true
  | _ :: _, [] => false
  | a :: as, b :: bs => if a = b then strLt as bs else decide (a.toNat < b.toNat)

/-- The odd-position pieces of a `'"'`-split that sit between a complete
pair of quotes: this computes `re.findall('"([^"]*)"', s)`, the contents
of the maximal left-to-right non-overlapping quoted spans. -/
def oddSlots : List Str → List Str
  | _ :: b :: c :: rest => b :: oddSlots (c :: rest)
  | _ => []

/-- `re.findall('"([^"]*)"', s)`: pair up consecutive double quotes from
the left and collect the enclosed contents. -/
def findQuoted (s : Str) : List Str := oddSlots (splitOn '"' s)

/-! Python `dict[str, str]` as an association list without duplicate keys,
built only through `dictInsert` (which overwrites in place, like Python). -/

/-- A Python string-keyed dictionary. -/
abbrev Dict := List (Str × Str)

/-- `d[k] = v`: overwrite in place if the key exists, else append. -/
def dictInsert (d : Dict) (k v : Str) : Dict :=
  if d.any (fun p => p.1 = k) then
    d.map fun p => if p.1 = k then (k, v) else p
  else d ++ [(k, v)]

/-- `dict(pairs)`: later pairs win. -/
def dictOf (pairs : List (Str × Str)) : Dict :=
  pairs.foldl (fun d p => dictInsert d p.1 p.2) []

/-- `k in d` / `d.get(k)`. -/
def dictGet (d : Dict) (k : Str) : Option Str :=
  (d.find? (fun p => p.1 = k)).map (·.2)

/-- `d.pop(k, None)`: the removed value (if any) and the remaining dict. -/
def dictPop (d : Dict) (k : Str) : Option Str × Dict :=
  (dictGet d k, d.filter (fun p => p.1 ≠ k))

/-- Python `dict.__eq__`: same keys with equal values, order ignored. -/
def dictEq (a b : Dict) : Bool :=
  a.all (fun p => dictGet b p.1 = some p.2) &&
    b.all (fun p => dictGet a p.1 = some p.2)

/-! The `ContentType` data structure (`datastructures.py`). -/

/-- `datastructures.ContentType`: a parsed media type.  `quality` is the
`float` attribute attached by `parse_accept` (absent right after
construction). -/
structure CT where
  ctype : Str
  csubtype : Str
  params : Dict
  suffix : Option Str
  quality : Option ℚ
  deriving DecidableEq, Repr

/-- The wildcard token `'*'`. -/
def star : Str := ['*']

/-- The `ContentType` constructor: type, subtype and suffix are stripped
and lower-cased; parameter names are lower-cased (`str(value)` on a string
is the identity). -/
def mkCT (t s : Str) (parameters : List (Str × Str)) (suf : Option Str) : CT :=
  { ctype := pyLower (strip t)
    csubtype := pyLower (strip s)
    params := (dictOf parameters).foldl (fun d p => dictInsert d (pyLower p.1) p.2) []
    suffix := suf.map (fun x => pyLower (strip x))
    quality := none }

/-- `ContentType.__eq__`: type, subtype, suffix and the parameter map
(quality is not compared). -/
def ctEq (a b : CT) : Bool :=
  a.ctype = b.ctype && a.csubtype = b.csubtype && a.suffix = b.suffix &&
    dictEq a.params b.params

/-- `ContentType.__lt__` (`datastructures.py`): wildcard type first, then
wildcard subtype, then parameter count, then lexical by type then
subtype. -/
def ctLt (a b : CT) : Bool :=
  if a.ctype = star ∧ b.ctype ≠ star then true
  else if a.csubtype = star ∧ b.csubtype ≠ star then true
  else if a.params.length < b.params.length then true
  else if a.ctype = b.ctype then strLt a.csubtype b.csubtype
  else strLt a.ctype b.ctype

/-- `ContentType.__gt__`, as synthesized by `functools.total_ordering`
from `__lt__` and `__eq__`. -/
def ctGt (a b : CT) : Bool := !ctLt a b && !ctEq a b

/-! Header parsing (`headers.py`). -/

/-- `_COMMENT_RE.sub('', v)` with the greedy pattern `\(.*\)`: removes
the span from the first `'('` to the last `')'` when the latter occurs
after the former, else leaves the value unchanged. -/
def removeComments (v : Str) : Str :=
  match v.findIdx? (· = '('), (v.reverse).findIdx? (· = ')') with
  | some i, some k =>
    let j := v.length - 1 - k
    if i < j then v.take i ++ v.drop (j + 1) else v
  | _, _ => v

/-- `_dequote`: strips one matching pair of surrounding double quotes;
indexing `value[0]` raises `IndexError` on the empty string. -/
def dequote (v : Str) : Except PyError Str :=
  match v with
  | [] => .error .indexError
  | c :: _ =>
    if c = '"' ∧ v.getLast? = some '"' then .ok (v.drop 1).dropLast
    else .ok v

/-- `name, value = param.split('=')`: exactly one `'='` or `ValueError`. -/
def splitEq (p : Str) : Except PyError (Str × Str) :=
  match splitOn '=' p with
  | [n, v] => .ok (n, v)
  | _ => .error .valueError

/-- One iteration of the `_parse_parameter_list` loop: `none` for a
blank piece, otherwise the normalized name/value pair. -/
def paramPiece (normNames normValues stripWs : Bool) (p0 : Str) :
    Except PyError (Option (Str × Str)) :=
  let p := strip p0
  if p = [] then .ok none
  else do
    let (n0, v0) ← splitEq p
    let (n1, v1) := if stripWs then (strip n0, strip v0) else (n0, v0)
    let n2 := if normNames then pyLower n1 else n1
    let v2 := if normValues then pyLower v1 else v1
    let dv ← dequote (strip v2)
    pure (some (n2, dv))

/-- `_parse_parameter_list`. -/
def parseParamList (normNames normValues stripWs : Bool) (l : List Str) :
    Except PyError (List (Str × Str)) := do
  let xs ← mapE (paramPiece normNames normValues stripWs) l
  pure (xs.reduceOption)

/-- The quoted-span protection pass of `parse_list`: for each quoted
content found, `value.partition(segment)` locates its first occurrence
anywhere in the value and replaces commas inside that occurrence by
NUL bytes. -/
def quotePass (v : Str) : Except PyError Str :=
  foldE
    (fun acc seg => do
      let (l, m, r) ← partitionStr seg acc
      pure (l ++ replaceChar ',' '\x00' m ++ r))
    v (findQuoted v)

/-- `headers.parse_list`. -/
def parse_list (v : Str) : Except PyError (List Str) := do
  let value ← quotePass v
  mapE
    (fun x => do
      let d ← dequote (strip x)
      pure (replaceChar '\x00' ',' d))
    (splitOn ',' value)

/-- `headers.parse_content_type` (newer snapshot: parameters are parsed
before the suffix split, and a failed `'/'` split raises
`MalformedContentType`). -/
def parse_content_type (contentType : Str) (normalizeValues : Bool) :
    Except PyError CT :=
  match splitOn ';' (removeComments contentType) with
  | [] => .error .valueError
  | typeSpec :: rest =>
    match splitOn '/' typeSpec with
    | [t, sub] => do
      let parameters ← parseParamList false normalizeValues false rest
      if '+' ∈ sub then
        match splitOn '+' sub with
        | [s1, s2] => pure (mkCT t s1 parameters (some s2))
        | _ => .error .valueError
      else pure (mkCT t sub parameters none)
    | _ => .error .malformedContentType

/-- Digit run to a natural number. -/
def digitsToNat (l : Str) : Nat :=
  l.foldl (fun acc c => acc * 10 + (c.toNat - 48)) 0

/-! Exact rational arithmetic through `mkRat`, so that every quality
computation reduces inside the kernel; these agree with the field
operations of `ℚ` (proved below). -/

/-- Multiplication on `ℚ` via `mkRat`. -/
def qmul (a b : ℚ) : ℚ := mkRat (a.num * b.num) (a.den * b.den)

/-- Addition on `ℚ` via `mkRat`. -/
def qadd (a b : ℚ) : ℚ :=
  mkRat (a.num * (b.den : ℤ) + b.num * (a.den : ℤ)) (a.den * b.den)

/-- Negation on `ℚ` via `mkRat`. -/
def qneg (a : ℚ) : ℚ := mkRat (-a.num) a.den

/-- Subtraction on `ℚ` via `mkRat`. -/
def qsub (a b : ℚ) : ℚ := qadd a (qneg b)

/-- Python `float(s)` on finite decimal literals, as an exact rational
(`inf`/`nan`/underscore forms are not modelled). -/
def parseFloat (s0 : Str) : Except PyError ℚ :=
  let s := strip s0
  let (neg, s1) :=
    match s with
    | '-' :: r => (true, r)
    | '+' :: r => (false, r)
    | _ => (false, s)
  let ip := s1.takeWhile Char.isDigit
  let r1 := s1.dropWhile Char.isDigit
  let (fp, r2) :=
    match r1 with
    | '.' :: r => (r.takeWhile Char.isDigit, r.dropWhile Char.isDigit)
    | _ => ([], r1)
  if ip = [] ∧ fp = [] then .error .valueError
  else
    let mant : ℚ := mkRat (digitsToNat (ip ++ fp) : ℤ) (10 ^ fp.length)
    let signed := if neg then qneg mant else mant
    match r2 with
    | [] => .ok signed
    | e :: r =>
      if e = 'e' ∨ e = 'E' then
        let (eneg, r3) :=
          match r with
          | '-' :: rr => (true, rr)
          | '+' :: rr => (false, rr)
          | _ => (false, r)
        let ed := r3.takeWhile Char.isDigit
        let r4 := r3.dropWhile Char.isDigit
        if ed = [] ∨ r4 ≠ [] then .error .valueError
        else
          let k := digitsToNat ed
          .ok (if eneg then qmul signed (mkRat 1 (10 ^ k))
               else qmul signed ((10 ^ k : Nat) : ℚ))
      else .error .valueError

/-- Python `int(s)` on decimal literals. -/
def parseInt (s0 : Str) : Except PyError ℤ :=
  let s := strip s0
  let (neg, s1) :=
    match s with
    | '-' :: r => (true, r)
    | '+' :: r => (false, r)
    | _ => (false, s)
  if s1 = [] ∨ ¬ s1.all Char.isDigit then .error .valueError
  else .ok (if neg then -(digitsToNat s1 : ℤ) else (digitsToNat s1 : ℤ))

/-! Python's stable sorts, modelled as stable insertion sorts:
a new element is placed before the first existing element that must
come after it, hence after every element that compares equal. -/

/-- Stable insertion for a strict `<` predicate (Python `sorted`). -/
def insertLt (lt : α → α → Bool) (x : α) : List α → List α
  | [] => [x]
  | y :: ys => if lt x y then x :: y :: ys else y :: insertLt lt x ys

/-- Python `sorted(l)` driven by a strict `<` predicate. -/
def pySortLt (lt : α → α → Bool) (l : List α) : List α :=
  l.foldr (insertLt lt) []

/-- Stable insertion for a three-way comparator (`functools.cmp_to_key`). -/
def insertCmp (cmp : α → α → Int) (x : α) : List α → List α
  | [] => [x]
  | y :: ys => if cmp x y < 0 then x :: y :: ys else y :: insertCmp cmp x ys

/-- Python `sorted(l, key=functools.cmp_to_key(cmp))`. -/
def pySortCmp (cmp : α → α → Int) (l : List α) : List α :=
  l.foldr (insertCmp cmp) []

/-! `_parse_qualified_list` (newer snapshot). -/

/-- The parameter name `q`. -/
def qKey : Str := ['q']

/-- The literal quality string `1.0`. -/
def oneLit : Str := ['1', '.', '0']

/-- State of the `_parse_qualified_list` loop. -/
structure QualState where
  foundWildcard : Bool
  vals : List (ℚ × Str)
  rejected : List Str
  dflt : ℚ
  deriving Repr

/-- The token before the first `';'` of a space-stripped element. -/
def charsetOf (raw : Str) : Str :=
  (partitionChar ';' (removeAllChar ' ' raw)).1

/-- One iteration of the `_parse_qualified_list` loop.  A wildcard only
sets the flag (skipping the `default` decrement); otherwise the quality
is the parsed `q` parameter or the positional default, rejected below
`0.001`, and boosted above everything when the literal text was `1.0`. -/
def qualStep (highest : ℚ) (st : QualState) (raw : Str) :
    Except PyError QualState :=
  let cleaned := removeAllChar ' ' raw
  let charset := (partitionChar ';' cleaned).1
  let parameterStr := (partitionChar ';' cleaned).2.2
  if charset = star then pure { st with foundWildcard := true }
  else do
    let params := dictOf (← parseParamList false true false (splitOn ';' parameterStr))
    let actual := dictGet params qKey
    let quality ← match actual with
      | some qs => parseFloat qs
      | none => pure st.dflt
    if quality < mkRat 1 1000 then
      pure { st with rejected := st.rejected ++ [charset],
                     dflt := qsub st.dflt 1 }
    else if actual = some oneLit then
      pure { st with vals := st.vals ++ [(qadd highest st.dflt, charset)],
                     dflt := qsub st.dflt 1 }
    else
      pure { st with vals := st.vals ++ [(quality, charset)],
                     dflt := qsub st.dflt 1 }

/-- Python `<` on the `(quality, token)` tuples of the qualified list. -/
def pairLt (a b : ℚ × Str) : Bool :=
  decide (a.1 < b.1) || (decide (a.1 = b.1) && strLt a.2 b.2)

/-- `_parse_qualified_list`. -/
def parseQualifiedList (value : Str) : Except PyError (List Str) := do
  let parsed ← parse_list value
  let d0 : ℚ := ((parsed.length + 1 : Nat) : ℚ)
  let highest := qadd d0 1
  let st ← foldE (qualStep highest) ⟨false, [], [], d0⟩ parsed
  let sortedVals := pySortLt (fun a b => pairLt b a) st.vals
  pure (sortedVals.map (·.2) ++ (if st.foundWildcard then [star] else [])
    ++ st.rejected)

/-! `parse_cache_control` and `parse_forwarded`. -/

/-- A Cache-Control directive value. -/
inductive CCVal where
  | strv (v : Str)
  | intv (v : ℤ)
  | boolv (v : Bool)
  | null
  deriving DecidableEq, Repr

/-- Insertion with overwrite-in-place for the directive dictionary. -/
def ccInsert (d : List (Str × CCVal)) (k : Str) (v : CCVal) :
    List (Str × CCVal) :=
  if d.any (fun p => p.1 = k) then
    d.map fun p => if p.1 = k then (k, v) else p
  else d ++ [(k, v)]

/-- Lookup in the directive dictionary. -/
def ccGet (d : List (Str × CCVal)) (k : Str) : Option CCVal :=
  (d.find? (fun p => p.1 = k)).map (·.2)

/-- `_CACHE_CONTROL_BOOL_DIRECTIVES`. -/
def ccBoolDirectives : List Str :=
  [pstr "must-revalidate", pstr "no-cache", pstr "no-store",
   pstr "no-transform", pstr "only-if-cached", pstr "public",
   pstr "private", pstr "proxy-revalidate"]

/-- `headers.parse_cache_control`. -/
def parse_cache_control (v : Str) : Except PyError (List (Str × CCVal)) := do
  let segments ← parse_list v
  let directives ← foldE
    (fun d segment => do
      let (name, sep, value) := partitionChar '=' segment
      if sep ≠ ['='] then pure (ccInsert d name .null)
      else if value ≠ [] then do
        let value' ← dequote (strip value)
        match parseInt value' with
        | .ok n => pure (ccInsert d name (.intv n))
        | .error _ => pure (ccInsert d name (.strv value'))
      else pure d)
    [] segments
  pure (ccBoolDirectives.foldl
    (fun d name =>
      if ccGet d name = some .null then ccInsert d name (.boolv true) else d)
    directives)

/-- The standard `Forwarded` parameter names. -/
def fwdStdParams : List Str :=
  [pstr "for", pstr "proto", pstr "by", pstr "host"]

/-- `headers.parse_forwarded`. -/
def parse_forwarded (v : Str) (onlyStd : Bool) :
    Except PyError (List Dict) := do
  let entries ← parse_list v
  mapE
    (fun entry => do
      let pts ← parseParamList true false false (splitOn ';' entry)
      if onlyStd ∧ pts.any (fun p => ¬ p.1 ∈ fwdStdParams) then
        throw .strictHeaderFailure
      else pure (dictOf pts))
    entries

/-! `parse_accept` (newer snapshot).  The synthetic-quality counter
starts at `decimal.ExtendedContext.next_plus(Decimal('5.0'))` — that is
`5.00000001`, the only operation performed under the precision-9
`ExtendedContext` — and is then stepped by `next_minus()` with no
context argument, so the steps happen under the thread-default decimal
context: precision 28, rounding `ROUND_HALF_EVEN`.  The decimal is
modelled as an exact coefficient/exponent pair, and the `float()`
applied to it as correctly-rounded conversion to a 53-bit binary
significand (round to nearest, ties to even), which is what CPython
computes for the positive normal-range values the counter takes. -/

/-- A decimal `coeff * 10 ^ (-nexp)`. -/
structure Dec where
  coeff : ℤ
  nexp : Nat
  deriving DecidableEq, Repr

/-- The rational value of the decimal. -/
def Dec.val (d : Dec) : ℚ := mkRat d.coeff (10 ^ d.nexp)

/-- `decimal.ExtendedContext.next_plus(Decimal('5.0')) = 5.00000001`. -/
def decInit : Dec := ⟨500000001, 8⟩

/-- Scale a positive coefficient up to 28 digits — the precision of the
thread-default decimal context — keeping the value unchanged; 28 fuel
steps cover every positive coefficient below `10 ^ 28`. -/
def norm28F : Nat → ℤ → Nat → Dec
  | 0, c, n => ⟨c, n⟩
  | fuel + 1, c, n =>
    if c < 10 ^ 27 then norm28F fuel (10 * c) (n + 1) else ⟨c, n⟩

/-- `Decimal.next_minus()` under the thread-default context (precision
28) on a positive decimal: the largest decimal with 28 significant
digits below the value — decrement in the 28th digit position, refining
by one more digit when the value is exactly a power of ten. -/
def Dec.nextMinus (d : Dec) : Dec :=
  if (norm28F 28 d.coeff d.nexp).coeff = 10 ^ 27 then
    ⟨10 ^ 28 - 1, (norm28F 28 d.coeff d.nexp).nexp + 1⟩
  else
    ⟨(norm28F 28 d.coeff d.nexp).coeff - 1, (norm28F 28 d.coeff d.nexp).nexp⟩

/-! Python `float()` of the decimal counter: correctly-rounded
conversion to an IEEE-754 double, modelled for the positive
normal-range values the counter takes. -/

/-- `2 ^ z` as a rational, for an integer exponent. -/
def qpow2 (z : ℤ) : ℚ :=
  if 0 ≤ z then ((2 ^ z.toNat : ℕ) : ℚ) else mkRat 1 (2 ^ (-z).toNat)

/-- Floor of the base-2 logarithm of a positive rational, by repeated
halving / doubling; 1200 fuel steps cover the double range. -/
def floorLog2F : Nat → ℚ → ℤ → ℤ
  | 0, _, e => e
  | fuel + 1, q, e =>
    if 2 ≤ q then floorLog2F fuel (qmul q (mkRat 1 2)) (e + 1)
    else if q < 1 then floorLog2F fuel (qmul q 2) (e - 1)
    else e

/-- The floor of a rational. -/
def qfloor (q : ℚ) : ℤ := q.num / q.den

/-- Round to the nearest integer, ties to even. -/
def roundHalfEven (q : ℚ) : ℤ :=
  if qsub q (mkRat (qfloor q) 1) < mkRat 1 2 then qfloor q
  else if mkRat 1 2 < qsub q (mkRat (qfloor q) 1) then qfloor q + 1
  else if qfloor q % 2 = 0 then qfloor q else qfloor q + 1

/-- `float()` of a positive rational in the normal double range: scale
into `[2^52, 2^53)`, round to the nearest integer significand (ties to
even), scale back. -/
def pyFloat (q : ℚ) : ℚ :=
  if q ≤ 0 then 0
  else
    qmul
      (mkRat (roundHalfEven (qmul q (qpow2 (52 - floorLog2F 1200 q 0)))) 1)
      (qpow2 (floorLog2F 1200 q 0 - 52))

/-- The first loop of `parse_accept`: parse each element as a content
type, skipping `ValueError`s unless `strict`. -/
def collectHeaders (strict : Bool) (elems : List Str) :
    Except PyError (List CT) :=
  foldE
    (fun acc e =>
      match parse_content_type e true with
      | .ok ct => pure (acc ++ [ct])
      | .error err =>
        if strict then throw err
        else if err.isValueError then pure acc else throw err)
    [] elems

/-- The quality-attachment step of `parse_accept`: pop `q`; absent means
quality `1.0`; the literal text `1.0` assigns `float()` of the decimal
counter and steps the counter; anything else is `float(q)`. -/
def assignStep (h : CT) (counter : Dec) : Except PyError (CT × Dec) :=
  let popped := dictPop h.params qKey
  match popped.1 with
  | none => pure ({ h with params := popped.2, quality := some 1 }, counter)
  | some qs =>
    if qs = oneLit then
      pure
        ({ h with params := popped.2, quality := some (pyFloat counter.val) },
          counter.nextMinus)
    else do
      let qv ← parseFloat qs
      pure ({ h with params := popped.2, quality := some qv }, counter)

/-- The second loop of `parse_accept`, threading the decimal counter. -/
def assignQualities : List CT → Dec → Except PyError (List CT × Dec)
  | [], c => pure ([], c)
  | h :: t, c => do
    let hc ← assignStep h c
    let tc ← assignQualities t hc.2
    pure (hc.1 :: tc.1, tc.2)

/-- The quality a consumer sees (`1.0` when unset). -/
def qualityOf (c : CT) : ℚ := c.quality.getD 1

/-- The `ordering` comparator of `parse_accept`: by quality descending,
ties by `ContentType` comparison (greater first), equal values tie. -/
def acceptCmp (l r : CT) : Int :=
  if qualityOf l = qualityOf r then
    if ctEq l r then 0 else if ctGt l r then -1 else 1
  else if qualityOf l > qualityOf r then -1 else 1

/-- `headers.parse_accept`. -/
def parse_accept (v : Str) (strict : Bool) : Except PyError (List CT) := do
  let elems ← parse_list v
  let headers ← collectHeaders strict elems
  let aq ← assignQualities headers decInit
  pure (pySortCmp acceptCmp aq.1)

/-! A tag-carrying mirror of `parse_accept`, used to speak about which
source entry each output element came from: tags ride along unchanged
and the comparator ignores them, so dropping tags recovers
`parse_accept` exactly (proved below). -/

/-- `assignStep` on a tagged content type. -/
def assignStepT (h : CT × Nat) (counter : Dec) :
    Except PyError ((CT × Nat) × Dec) := do
  let hc ← assignStep h.1 counter
  pure ((hc.1, h.2), hc.2)

/-- `assignQualities` on tagged content types. -/
def assignQualitiesT : List (CT × Nat) → Dec →
    Except PyError (List (CT × Nat) × Dec)
  | [], c => pure ([], c)
  | h :: t, c => do
    let hc ← assignStepT h c
    let tc ← assignQualitiesT t hc.2
    pure (hc.1 :: tc.1, tc.2)

/-- The `parse_accept` comparator lifted to tagged values (tags are
ignored). -/
def acceptCmpT (l r : CT × Nat) : Int := acceptCmp l.1 r.1

/-- Tag a list with declaration positions, starting at `n`. -/
def tagifyFrom (n : Nat) : List CT → List (CT × Nat)
  | [] => []
  | h :: t => (h, n) :: tagifyFrom (n + 1) t

/-- Tag a list with declaration positions. -/
def tagify (l : List CT) : List (CT × Nat) := tagifyFrom 0 l

/-- `parse_accept` carrying declaration tags through the pipeline. -/
def parse_accept_tagged (v : Str) (strict : Bool) :
    Except PyError (List (CT × Nat)) := do
  let elems ← parse_list v
  let headers ← collectHeaders strict elems
  let aq ← assignQualitiesT (tagify headers) decInit
  pure (pySortCmp acceptCmpT aq.1)

/-- The parsed headers of an Accept value before quality attachment. -/
def acceptHeaders (v : Str) (strict : Bool) : Except PyError (List CT) := do
  collectHeaders strict (← parse_list v)

/-! The Link header machinery: `_helpers.ParameterParser` (newer
snapshot) and `headers.parse_link`. -/

/-- `datastructures.LinkHeader`. -/
structure LinkHeader where
  target : Str
  parameters : List (Str × Str)
  deriving DecidableEq, Repr

/-- The five RFC-tracked parameter names. -/
def relKey : Str := pstr "rel"

/-- The `media` parameter name. -/
def mediaKey : Str := pstr "media"

/-- The `type` parameter name. -/
def typeKey : Str := pstr "type"

/-- The `title` parameter name. -/
def titleKey : Str := pstr "title"

/-- The `title*` parameter name. -/
def titleStarKey : Str := pstr "title*"

/-- The list of the five RFC-tracked names. -/
def rfcNames : List Str := [relKey, mediaKey, typeKey, titleKey, titleStarKey]

/-- `ParameterParser` state: the running value list and the `_rfc_values`
slots for the five tracked names. -/
structure PP where
  strict : Bool
  vals : List (Str × Str)
  rel : Option Str
  media : Option Str
  mtype : Option Str
  mtitle : Option Str
  mtitleStar : Option Str
  deriving DecidableEq, Repr

/-- A fresh `ParameterParser`. -/
def initPP (strict : Bool) : PP := ⟨strict, [], none, none, none, none, none⟩

/-- `_rfc_values[name]`: `none` when `name` is not tracked (`KeyError`). -/
def getSlot (st : PP) (n : Str) : Option (Option Str) :=
  if n = relKey then some st.rel
  else if n = mediaKey then some st.media
  else if n = typeKey then some st.mtype
  else if n = titleKey then some st.mtitle
  else if n = titleStarKey then some st.mtitleStar
  else none

/-- `_rfc_values[name] = value`. -/
def setSlot (st : PP) (n v : Str) : PP :=
  if n = relKey then { st with rel := some v }
  else if n = mediaKey then { st with media := some v }
  else if n = typeKey then { st with mtype := some v }
  else if n = titleKey then { st with mtitle := some v }
  else if n = titleStarKey then { st with mtitleStar := some v }
  else st

/-- Append a pair to the running value list. -/
def pushVal (st : PP) (p : Str × Str) : PP := { st with vals := st.vals ++ [p] }

/-- `ParameterParser.add_value` (newer snapshot): remember the first
value of a tracked name; in strict mode drop later occurrences of
tracked names and defer `title`/`title*` emission to `values`. -/
def addValue (st : PP) (nv : Str × Str) : PP :=
  match getSlot st nv.1 with
  | some none =>
    let st1 := setSlot st nv.1 nv.2
    if st1.strict ∧ (nv.1 = titleKey ∨ nv.1 = titleStarKey) then st1
    else pushVal st1 nv
  | some (some _) =>
    if st.strict then st
    else pushVal st nv
  | none =>
    if st.strict ∧ (nv.1 = titleKey ∨ nv.1 = titleStarKey) then st
    else pushVal st nv

/-- `ParameterParser.values`: in strict mode append the retained
`title*`/`title` values, the `title*` value overriding `title`. -/
def ppValues (st : PP) : List (Str × Str) :=
  if st.strict then
    match st.mtitleStar, st.mtitle with
    | some pt, some _ => st.vals ++ [(titleStarKey, pt), (titleKey, pt)]
    | some pt, none => st.vals ++ [(titleStarKey, pt)]
    | none, some ft => st.vals ++ [(titleKey, ft)]
    | none, none => st.vals
  else st.vals

/-- Split at the first occurrence of a character, dropping it. -/
def splitFirst (c : Char) : Str → Option (Str × Str)
  | [] => none
  | x :: rest =>
    if x = c then some ([], rest)
    else (splitFirst c rest).map fun p => (x :: p.1, p.2)

/-- The quoted-span protection pass of `parse_link`: commas and
semicolons inside the located spans become sentinel bytes. -/
def linkQuotePass (buf0 : Str) : Except PyError Str :=
  foldE
    (fun b seg => do
      let (l, m, r) ← partitionStr seg b
      pure (l ++ replaceChar ';' '\x01' (replaceChar ',' '\x00' m) ++ r))
    buf0 (findQuoted buf0)

theorem length_dropWhile_le (p : Char → Bool) (l : Str) :
    (l.dropWhile p).length ≤ l.length := by
  induction l with
  | nil => simp [List.dropWhile]
  | cons a l ih => by_cases h : p a <;> simp [List.dropWhile, h] <;> omega

theorem length_takeWhile_le (p : Char → Bool) (l : Str) :
    (l.takeWhile p).length ≤ l.length := by
  induction l with
  | nil => simp [List.takeWhile]
  | cons a l ih => by_cases h : p a <;> simp [List.takeWhile, h] <;> omega

theorem length_strip_le (s : Str) : (strip s).length ≤ s.length := by
  unfold strip rstrip lstrip
  calc ((List.dropWhile isPySpace
        (List.dropWhile isPySpace s).reverse).reverse).length
      = (List.dropWhile isPySpace
        (List.dropWhile isPySpace s).reverse).length := by simp
    _ ≤ (List.dropWhile isPySpace s).reverse.length :=
        length_dropWhile_le _ _
    _ = (List.dropWhile isPySpace s).length := by simp
    _ ≤ s.length := length_dropWhile_le _ _

theorem length_replaceChar (a b : Char) (s : Str) :
    (replaceChar a b s).length = s.length := by
  simp [replaceChar]

theorem splitFirst_length {c : Char} {s a b : Str}
    (h : splitFirst c s = some (a, b)) : b.length < s.length := by
  induction s generalizing a b with
  | nil => simp [splitFirst] at h
  | cons x rest ih =>
    by_cases hx : x = c
    · simp [splitFirst, hx] at h
      rw [← h.2]
      simp
    · simp only [splitFirst, hx, ite_false, if_neg, Option.map_eq_some'] at h
      obtain ⟨⟨p1, p2⟩, hp, hq⟩ := h
      cases hq
      have hlt := ih hp
      simp only [List.length_cons]
      omega

theorem length_partitionChar_third (sep : Char) (s : Str) :
    (partitionChar sep s).2.2.length ≤ s.length := by
  unfold partitionChar
  cases h : findSub [sep] s with
  | none => simp
  | some i => simp

/-- The `while buf` loop of `parse_links`: each iteration must start at
`'<'`, takes the target up to the first `'>'`, skips whitespace, and
(because `.` does not match a newline) reads the parameter tail up to
the first newline, splitting it from the rest of the buffer at the
first comma; commas are then restored, the tail must begin with `';'`
if non-empty, and the tail splits on `';'` into stripped non-empty
pieces with semicolons restored. -/
def linkLoopF : Nat → Str → Except PyError (List (Str × List Str))
  | _, [] => pure []
  | 0, _ :: _ => throw .malformedLinkValue
  | fuel + 1, c :: rest =>
    if c = '<' then
      match splitFirst '>' rest with
      | none => throw .malformedLinkValue
      | some (link, afterGt) =>
        let afterWs := afterGt.dropWhile isPySpace
        let paramsAll := afterWs.takeWhile (· ≠ '\n')
        let parts := partitionChar ',' paramsAll
        let params1 := replaceChar '\x00' ',' parts.1
        if params1 ≠ [] ∧ params1.head? ≠ some ';' then
          throw .malformedLinkValue
        else do
          let plist := ((splitOn ';' (params1.drop 1)).filter (· ≠ [])).map
            fun p => strip (replaceChar '\x01' ';' p)
          let restLinks ← linkLoopF fuel (strip parts.2.2)
          pure ((strip link, plist) :: restLinks)
    else throw .malformedLinkValue

/-- The loop, run with enough fuel for its input: every iteration
consumes at least the leading `'<...>'`, so the buffer length strictly
decreases (see the length lemmas above) and the fuel is never
exhausted; the fuel only makes the recursion structural. -/
def linkLoop (buf : Str) : Except PyError (List (Str × List Str)) :=
  linkLoopF buf.length buf

/-- `headers.parse_link` (newer snapshot). -/
def parse_link (v : Str) (strict : Bool) : Except PyError (List LinkHeader) := do
  let buf ← linkQuotePass (removeComments v)
  let rawLinks ← linkLoop buf
  mapE
    (fun tp => do
      let pairs ← parseParamList false true true tp.2
      pure (⟨tp.1, ppValues (pairs.foldl addValue (initPP strict))⟩ : LinkHeader))
    rawLinks

/-- The target/parameter-string pairs `parse_links` yields for a value. -/
def linkRawOf (v : Str) : Except PyError (List (Str × List Str)) := do
  linkLoop (← linkQuotePass (removeComments v))

/-! `algorithms.select_content_type` (present only in the older
snapshot, which is therefore the one embedded). -/

/-- `extract_quality`: an unset quality reads as `1.0`. -/
def extractQuality (c : CT) : ℚ :=
  match c.quality with
  | none => 1
  | some q => q

/-- `_wildcard_compare`. -/
def wildcardCompare (spec patt : Str) : Bool := patt = star || spec = patt

/-- `_content_type_matches`. -/
def typeMatches (cand patt : CT) : Bool :=
  wildcardCompare cand.ctype patt.ctype &&
    wildcardCompare cand.csubtype patt.csubtype

/-- The scored `Match` record of `select_content_type`. -/
structure MatchRec where
  candidate : CT
  pattern : CT
  matchType : Nat
  pDist : ℤ
  deriving DecidableEq, Repr

/-- Build a `Match`: `match_type` 2 for `*/*` patterns, 1 for `type/*`,
0 otherwise; `parameter_distance` starts at the candidate's parameter
count and moves down (up) for each agreeing (disagreeing) shared
parameter. -/
def mkMatch (cand patt : CT) : MatchRec :=
  { candidate := cand
    pattern := patt
    matchType :=
      if patt.ctype = patt.csubtype ∧ patt.csubtype = star then 2
      else if patt.csubtype = star then 1
      else 0
    pDist := (cand.params.length : ℤ) +
      cand.params.foldl
        (fun acc p =>
          match dictGet patt.params p.1 with
          | some pv => if pv = p.2 then acc - 1 else acc + 1
          | none => acc)
        0 }

/-- Result of scanning one pattern: either the loop halts (exact match
found, winning or hard-rejected) or continues with more scored
matches. -/
inductive ScanRes where
  | halt (r : Except PyError (CT × CT))
  | cont (ms : List MatchRec)
  deriving Repr

/-- The inner candidate loop for one pattern. -/
def scanCands (patt : CT) : List CT → List MatchRec → ScanRes
  | [], acc => .cont acc
  | c :: rest, acc =>
    if typeMatches c patt then
      if ctEq c patt then
        if extractQuality patt = 0 then .halt (.error .noMatch)
        else .halt (.ok (c, patt))
      else scanCands patt rest (acc ++ [mkMatch c patt])
    else scanCands patt rest acc

/-- Lexicographic order on `(match_type, parameter_distance)`. -/
def matchKeyLt (a b : MatchRec) : Bool :=
  a.matchType < b.matchType ∨ (a.matchType = b.matchType ∧ a.pDist < b.pDist)

/-- `sorted(matches, key=attrgetter('match_type', 'parameter_distance'))[0]`:
the first match attaining the minimal key (stable sort + head). -/
def bestOf (m : MatchRec) (ms : List MatchRec) : MatchRec :=
  ms.foldl (fun acc x => if matchKeyLt x acc then x else acc) m

/-- The overall outcome of the matching loops. -/
inductive NegOutcome where
  | halted (r : Except PyError (CT × CT))
  | nomatches
  | best (m : MatchRec)
  deriving Repr

/-- The outer pattern loop. -/
def negotiateGo : List CT → List CT → List MatchRec → NegOutcome
  | [], _, acc =>
    match acc with
    | [] => .nomatches
    | m :: ms => .best (bestOf m ms)
  | p :: ps, cands, acc =>
    match scanCands p cands acc with
    | .halt r => .halted r
    | .cont acc' => negotiateGo ps cands acc'

/-- Patterns sorted by quality descending, candidates by `ContentType`
order, then the two matching loops. -/
def negotiate (requested available : List CT) : NegOutcome :=
  negotiateGo
    (pySortLt (fun a b => decide (extractQuality b < extractQuality a)) requested)
    (pySortLt ctLt available)
    []

/-- `algorithms.select_content_type`. -/
def select_content_type (requested available : List CT) :
    Except PyError (CT × CT) :=
  match negotiate requested available with
  | .halted r => r
  | .nomatches => .error .noMatch
  | .best m => .ok (m.candidate, m.pattern)

/-- Modelled from the spec: the current upstream `select_content_type`
accepts an optional `default` argument; that revision of
`algorithms.py` is absent from the sources (only its tests remain), so
the `default` handling follows spec section 4.7: "If no candidate
matches any pattern: return `default` paired with itself if supplied,
else fail with `NoMatch`.  `default`, if given, must itself be a member
of `available` or the call fails with an `InvalidArgument` error before
matching begins."  Membership uses `ContentType` equality, and the
matching loops are those of the embedded `select_content_type`. -/
def select_content_type_default (requested available : List CT)
    (dflt : Option CT) : Except PyError (CT × CT) :=
  match dflt with
  | none => select_content_type requested available
  | some d =>
    if available.any (fun a => ctEq d a) then
      match negotiate requested available with
      | .halted r => r
      | .nomatches => .ok (d, d)
      | .best m => .ok (m.candidate, m.pattern)
    else .error .invalidArgument

/-! Auxiliary notions used only to state the claims. -/

/-- The raw subtype portion of a content-type value: the piece between
`'/'` and the first `';'` after comment removal (empty when the shape is
not `type/subtype`). -/
def subtypeRawOf (s : Str) : Str :=
  match splitOn '/' ((splitOn ';' (removeComments s)).headD []) with
  | [_, sub] => sub
  | _ => []

/-- The first `(pattern, candidate)` pair, in iteration order of
`select_content_type`'s nested loops, where the candidate equals the
pattern (equality implies a type match, so these are exactly the pairs
that reach the exact-match test). -/
def firstExactIn (pats cands : List CT) : Option (CT × CT) :=
  match pats with
  | [] => none
  | p :: rest =>
    match cands.find? (fun c => ctEq c p) with
    | some c => some (p, c)
    | none => firstExactIn rest cands

/-- The rank of a declaration tag in a tagged output list. -/
def posOf (tag : Nat) (out : List (CT × Nat)) : Nat :=
  out.findIdx fun x => x.2 = tag

/-- The parsed entry carried an explicit `q` parameter with the literal
value `1.0`. -/
def hasExplicitOne (h : CT) : Bool := dictGet h.params qKey = some oneLit

/-- The parsed entry carried no `q` parameter. -/
def hasNoQ (h : CT) : Bool := dictGet h.params qKey = none

/-- The number of entries with an explicit `q=1.0`. -/
def countExplicitOnes (hdrs : List CT) : Nat :=
  hdrs.countP fun h => hasExplicitOne h

/-- Claim C1 at one header value: in the output of `parse_accept` (tag
form), every entry with explicit `q=1.0` ranks above every entry without
a `q` parameter, and entries with explicit `q=1.0` keep their relative
declaration order. -/
def ClaimC1At (v : Str) : Prop :=
  ∀ out hdrs, parse_accept_tagged v false = .ok out →
    acceptHeaders v false = .ok hdrs →
    (∀ i j hi hj, hdrs.get? i = some hi → hdrs.get? j = some hj →
      hasExplicitOne hi = true → hasNoQ hj = true →
      posOf i out < posOf j out) ∧
    (∀ i j hi hj, hdrs.get? i = some hi → hdrs.get? j = some hj →
      hasExplicitOne hi = true → hasExplicitOne hj = true → i < j →
      posOf i out < posOf j out)

/-- Remove every occurrence of an RFC-tracked name after its first one
(used to state that such occurrences are invisible to the strict
parser). -/
def dropLaterRfc (seen : List Str) : List (Str × Str) → List (Str × Str)
  | [] => []
  | p :: rest =>
    if p.1 ∈ rfcNames ∧ p.1 ∈ seen then dropLaterRfc seen rest
    else p :: dropLaterRfc (p.1 :: seen) rest

/-! Concrete parsed elements used to exercise `parse_accept`. -/

/-- The parsed form of one `a/a;q=1.0` element, before quality
attachment. -/
def ctaRaw : CT := ⟨pstr "a", pstr "a", [(qKey, oneLit)], none, none⟩

/-- The parsed form of one `z/z` element, before quality attachment. -/
def ctzRaw : CT := ⟨pstr "z", pstr "z", [], none, none⟩

/-- The parsed form of one `z/z;q=1.0` element, before quality
attachment. -/
def ctzOneRaw : CT := ⟨pstr "z", pstr "z", [(qKey, oneLit)], none, none⟩

/-- The number of explicit `q=1.0` entries of a tagged list. -/
def explicitCount (l : List (CT × Nat)) : Nat :=
  l.countP fun x => hasExplicitOne x.1

/-! General lemmas about the embedded primitives. -/

theorem strLt_irrefl (s : Str) : strLt s s = false := by
  induction s with
  | nil => rfl
  | cons a l ih => simp [strLt, ih]

theorem strLt_asymm {a b : Str} (h : strLt a b = true) : strLt b a = false := by
  induction a generalizing b with
  | nil =>
    cases b with
    | nil => simp [strLt] at h
    | cons x xs => simp [strLt]
  | cons x xs ih =>
    cases b with
    | nil => simp [strLt] at h
    | cons y ys =>
      by_cases hxy : x = y
      · subst hxy
        simp [strLt] at h ⊢
        exact ih h
      · simp [strLt, hxy] at h
        simp [strLt, Ne.symm hxy]
        omega

/-! Claim C9: the `<` comparison on `ContentType`. -/

/-- Claim C9 counterexample: the claim calls `<` a strict partial order
(in particular asymmetric), but `*/a;p=1 < b/*` by the wildcard-type
clause while `b/* < */a;p=1` by the wildcard-subtype clause, so
asymmetry (and with it transitivity of a strict order) fails. -/
theorem claim_c9_counterexample :
    ctLt ⟨pstr "*", pstr "a", [(pstr "p", pstr "1")], none, none⟩
        ⟨pstr "b", pstr "*", [], none, none⟩ = true ∧
    ctLt ⟨pstr "b", pstr "*", [], none, none⟩
        ⟨pstr "*", pstr "a", [(pstr "p", pstr "1")], none, none⟩ = true := by
  constructor <;> rfl

/-- Claim C9, amended: `<` on `ContentType` is irreflexive and follows
the documented clauses (a wildcard type sorts below any non-wildcard
type, a wildcard subtype below any non-wildcard subtype, fewer
parameters below more, otherwise lexical by type then subtype), but it
is not a strict partial order: asymmetry and transitivity fail. -/
theorem claim_c9_amended :
    (∀ x : CT, ctLt x x = false) ∧
    (∀ x y : CT, x.ctype = star → y.ctype ≠ star → ctLt x y = true) ∧
    (∀ x y : CT, x.csubtype = star → y.csubtype ≠ star → ctLt x y = true) ∧
    (∀ x y : CT, x.params.length < y.params.length → ctLt x y = true) ∧
    (∀ x y : CT,
      ¬(x.ctype = star ∧ y.ctype ≠ star) →
      ¬(x.csubtype = star ∧ y.csubtype ≠ star) →
      ¬ x.params.length < y.params.length →
      ctLt x y = (if x.ctype = y.ctype then strLt x.csubtype y.csubtype
                  else strLt x.ctype y.ctype)) := by
  refine ⟨?_, ?_, ?_, ?_, ?_⟩
  · intro x
    simp [ctLt, strLt_irrefl]
  · intro x y h1 h2
    simp [ctLt, h1, h2]
  · intro x y h1 h2
    by_cases hc : x.ctype = star ∧ y.ctype ≠ star
    · simp [ctLt, hc]
    · simp [ctLt, hc, h1, h2]
  · intro x y h
    by_cases hc : x.ctype = star ∧ y.ctype ≠ star
    · simp [ctLt, hc]
    · by_cases hs : x.csubtype = star ∧ y.csubtype ≠ star
      · simp [ctLt, hc, hs]
      · simp [ctLt, hc, hs, h]
  · intro x y h1 h2 h3
    simp [ctLt, h1, h2, h3]

/-- Claim C9 amended witness: the fewer-parameters clause at a concrete
pair. -/
theorem claim_c9_amended_witness :
    (⟨pstr "a", pstr "b", [], none, none⟩ : CT).params.length <
      (⟨pstr "a", pstr "b", [(qKey, oneLit)], none, none⟩ : CT).params.length ∧
    ctLt ⟨pstr "a", pstr "b", [], none, none⟩
      ⟨pstr "a", pstr "b", [(qKey, oneLit)], none, none⟩ = true :=
  ⟨by decide, claim_c9_amended.2.2.2.1 _ _ (by decide)⟩

/-! Claim C7: the subtype suffix split of `parse_content_type`. -/

theorem splitOn_length (sep : Char) (s : Str) :
    (splitOn sep s).length = s.count sep + 1 := by
  induction s with
  | nil => simp [splitOn]
  | cons c rest ih =>
    by_cases h : c = sep
    · simp [splitOn, h, List.count_cons, ih]
    · cases h' : splitOn sep rest with
      | nil => rw [h'] at ih; simp at ih
      | cons x xs =>
        rw [h'] at ih
        simp [splitOn, h, h', List.count_cons] at ih ⊢
        omega

theorem splitOn_ne_nil (sep : Char) (s : Str) : splitOn sep s ≠ [] := by
  intro h
  have := splitOn_length sep s
  rw [h] at this
  simp at this

/-- Claim C7 counterexample: the claim says any input whose subtype
contains a `'+'` parses successfully with a split at the last
occurrence, but `a/b+c+d` has two occurrences and the unpacking
`content_subtype.split('+')` raises `ValueError` instead. -/
theorem claim_c7_counterexample :
    '+' ∈ subtypeRawOf (pstr "a/b+c+d") ∧
    parse_content_type (pstr "a/b+c+d") true = .error .valueError :=
  ⟨by decide, by rfl⟩

/-- Claim C7, amended: a successful parse whose subtype portion contains
a `'+'` has exactly one occurrence, and splits there (trivially both the
first and last occurrence) into subtype and suffix; a subtype portion
with two or more `'+'` always fails (an unpacking `ValueError` when it
is reached, or an earlier parameter-parsing error). -/
theorem claim_c7_amended :
    (∀ s ct, parse_content_type s true = .ok ct → '+' ∈ subtypeRawOf s →
      ∃ s1 s2, splitOn '+' (subtypeRawOf s) = [s1, s2] ∧
        ct.csubtype = pyLower (strip s1) ∧
        ct.suffix = some (pyLower (strip s2))) ∧
    (∀ s, 2 ≤ (subtypeRawOf s).count '+' →
      ∃ e, parse_content_type s true = .error e) := by
  constructor
  · intro s ct hok hmem
    unfold parse_content_type at hok
    split at hok
    · exact absurd hok (by simp)
    next typeSpec rest heq =>
      split at hok
      next t sub heq2 =>
        have hsub : subtypeRawOf s = sub := by
          unfold subtypeRawOf
          rw [heq]
          simp only [List.headD_cons]
          rw [heq2]
        rw [hsub] at hmem ⊢
        cases hpp : parseParamList false true false rest with
        | error e => rw [hpp] at hok; exact absurd hok (by simp [Bind.bind, Except.bind])
        | ok params =>
          rw [hpp] at hok
          simp only [Bind.bind, Except.bind] at hok
          rw [if_pos hmem] at hok
          split at hok
          next s1 s2 heq3 =>
            refine ⟨s1, s2, heq3, ?_, ?_⟩
            · simp only [pure, Except.pure] at hok
              cases hok
              rfl
            · simp only [pure, Except.pure] at hok
              cases hok
              rfl
          next heq3 => exact absurd hok (by simp)
      next heq2 => exact absurd hok (by simp)
  · intro s hcount
    unfold parse_content_type
    split
    · exact ⟨.valueError, rfl⟩
    next typeSpec rest heq =>
      split
      next t sub heq2 =>
        have hsub : subtypeRawOf s = sub := by
          unfold subtypeRawOf
          rw [heq]
          simp only [List.headD_cons]
          rw [heq2]
        rw [hsub] at hcount
        cases hpp : parseParamList false true false rest with
        | error e => exact ⟨e, by simp [Bind.bind, Except.bind, hpp]⟩
        | ok params =>
          have hmem : '+' ∈ sub := by
            have : 0 < sub.count '+' := by omega
            exact List.count_pos_iff_mem.mp this
          have hlen : (splitOn '+' sub).length = sub.count '+' + 1 :=
            splitOn_length _ _
          refine ⟨.valueError, ?_⟩
          simp only [Bind.bind, Except.bind, hpp]
          rw [if_pos hmem]
          cases hq : splitOn '+' sub with
          | nil => rfl
          | cons a l =>
            cases l with
            | nil =>
              exfalso
              rw [hq] at hlen
              simp at hlen
              omega
            | cons b l2 =>
              cases l2 with
              | nil =>
                exfalso
                rw [hq] at hlen
                simp at hlen
                omega
              | cons c l3 => rfl
      next heq2 => exact ⟨.malformedContentType, rfl⟩

/-- Claim C7 amended witness: a single `'+'` splits into subtype and
suffix on a concrete input. -/
theorem claim_c7_amended_witness :
    parse_content_type (pstr "a/b+xml") true =
      .ok (mkCT (pstr "a") (pstr "b") [] (some (pstr "xml"))) ∧
    (∃ s1 s2, splitOn '+' (subtypeRawOf (pstr "a/b+xml")) = [s1, s2] ∧
      (mkCT (pstr "a") (pstr "b") [] (some (pstr "xml"))).csubtype =
        pyLower (strip s1) ∧
      (mkCT (pstr "a") (pstr "b") [] (some (pstr "xml"))).suffix =
        some (pyLower (strip s2))) :=
  ⟨by rfl, claim_c7_amended.1 (pstr "a/b+xml") _ (by rfl) (by decide)⟩

/-! Claim C3: `parse_list` quote protection (a code bug on inputs where
a quoted span's content also occurs earlier, unquoted). -/

/-- Claim C3 failing input: in `x,y "x,y"` the single quoted span has
content `x,y`, but `value.partition(segment)` protects the *first*
occurrence of that text, which lies outside the quotes; the result is
that the comma inside the quoted span splits the list while the comma
outside it does not, contradicting the claim in both directions. -/
theorem claim_c3_evaluation :
    findQuoted (pstr "x,y \"x,y\"") = [pstr "x,y"] ∧
    parse_list (pstr "x,y \"x,y\"") = .ok [pstr "x,y \"x", pstr "y\""] :=
  ⟨by decide, by rfl⟩

/-! Claim C10: `parse_list` and its clients crash on empty elements. -/

theorem dequote_isOk {x : Str} (h : x ≠ []) : ∃ d, dequote x = .ok d := by
  cases x with
  | nil => exact absurd rfl h
  | cons c cs =>
    simp only [dequote]
    split
    · exact ⟨_, rfl⟩
    · exact ⟨_, rfl⟩

theorem listStep_err (l : List Str) (h : ∃ x ∈ l, strip x = []) :
    mapE (fun x => do
      let d ← dequote (strip x)
      pure (replaceChar '\x00' ',' d)) l = .error (ε := PyError) .indexError := by
  induction l with
  | nil => simp at h
  | cons a rest ih =>
    obtain ⟨x, hx, hsx⟩ := h
    by_cases ha : strip a = []
    · simp [mapE, ha, dequote, Bind.bind, Except.bind]
    · have hxr : x ∈ rest := by
        cases hx with
        | head => exact absurd hsx ha
        | tail _ hmem => exact hmem
      have htail := ih ⟨x, hxr, hsx⟩
      obtain ⟨d, hd⟩ := dequote_isOk ha
      simp only [mapE, Bind.bind, Except.bind, pure, Except.pure, hd] at htail ⊢
      rw [htail]

/-- Claim C10: on the empty string, and on any value one of whose
comma-separated elements (after quote protection) trims to the empty
string, `parse_list` raises `IndexError` from `_dequote`, and so do all
the parsers built on it: `parse_accept`, `parse_cache_control`,
`parse_forwarded`, and the qualified-list parser behind
`parse_accept_charset`/`-_encoding`/`-_language`.  The empty input is
the instance `w = ''` whose single split element is empty. -/
theorem claim_c10_partiality :
    ∀ v w, quotePass v = .ok w →
      (∃ x ∈ splitOn ',' w, strip x = []) →
      parse_list v = .error .indexError ∧
      (∀ b, parse_accept v b = .error .indexError) ∧
      parse_cache_control v = .error .indexError ∧
      (∀ b, parse_forwarded v b = .error .indexError) ∧
      parseQualifiedList v = .error .indexError := by
  intro v w hq hex
  have hl : parse_list v = .error .indexError := by
    unfold parse_list
    rw [hq]
    simpa [Bind.bind, Except.bind] using listStep_err _ hex
  refine ⟨hl, ?_, ?_, ?_, ?_⟩
  · intro b
    simp [parse_accept, hl, Bind.bind, Except.bind]
  · simp [parse_cache_control, hl, Bind.bind, Except.bind]
  · intro b
    simp [parse_forwarded, hl, Bind.bind, Except.bind]
  · simp [parseQualifiedList, hl, Bind.bind, Except.bind]

/-- Claim C10 witness: the trailing-comma input `a,`. -/
theorem claim_c10_witness :
    quotePass (pstr "a,") = .ok (pstr "a,") ∧
    parse_list (pstr "a,") = .error .indexError ∧
    parse_accept (pstr "a,") false = .error .indexError :=
  ⟨by rfl, (claim_c10_partiality (pstr "a,") (pstr "a,") (by rfl) (by decide)).1,
    (claim_c10_partiality (pstr "a,") (pstr "a,") (by rfl) (by decide)).2.1 false⟩

/-! Claims C5 and C4: the `ParameterParser` semantics. -/

theorem setSlot_strict (st : PP) (n v : Str) :
    (setSlot st n v).strict = st.strict := by
  unfold setSlot
  split_ifs <;> rfl

theorem setSlot_vals (st : PP) (n v : Str) :
    (setSlot st n v).vals = st.vals := by
  unfold setSlot
  split_ifs <;> rfl

theorem pushVal_strict (st : PP) (p : Str × Str) :
    (pushVal st p).strict = st.strict := rfl

theorem pushVal_vals (st : PP) (p : Str × Str) :
    (pushVal st p).vals = st.vals ++ [p] := rfl

theorem getSlot_pushVal (st : PP) (p : Str × Str) (n : Str) :
    getSlot (pushVal st p) n = getSlot st n := by
  simp [getSlot, pushVal]

theorem addValue_strict (st : PP) (p : Str × Str) :
    (addValue st p).strict = st.strict := by
  unfold addValue
  cases h : getSlot st p.1 with
  | none => split_ifs <;> simp [pushVal_strict]
  | some o =>
    cases o with
    | none =>
      simp only [setSlot_strict]
      split_ifs <;> simp [pushVal_strict, setSlot_strict]
    | some w => split_ifs <;> simp [pushVal_strict]

theorem getSlot_isSome_of_mem {n : Str} (st : PP) (h : n ∈ rfcNames) :
    (getSlot st n).isSome := by
  simp only [rfcNames, List.mem_cons, List.mem_singleton, List.not_mem_nil,
    or_false] at h
  rcases h with h | h | h | h | h <;> subst h <;>
    (unfold getSlot; split_ifs <;> simp_all)

theorem initPP_slot (b : Bool) {n : Str} (h : n ∈ rfcNames) :
    getSlot (initPP b) n = some none := by
  simp only [rfcNames, List.mem_cons, List.mem_singleton, List.not_mem_nil,
    or_false] at h
  rcases h with h | h | h | h | h <;> subst h <;> rfl

theorem getSlot_setSlot_self {st : PP} {m : Str} (v : Str)
    (h : (getSlot st m).isSome) :
    getSlot (setSlot st m v) m = some (some v) := by
  unfold getSlot at h ⊢
  unfold setSlot
  split_ifs at h ⊢ <;> simp_all [getSlot]

theorem getSlot_setSlot_ne {m n : Str} (st : PP) (v : Str) (hne : n ≠ m) :
    getSlot (setSlot st m v) n = getSlot st n := by
  unfold setSlot
  split_ifs with h1 h2 h3 h4 h5 <;>
    simp_all [getSlot] <;> split_ifs <;> simp_all

theorem getSlot_addValue_filled {st : PP} {p : Str × Str} {n : Str} {w : Str}
    (h : getSlot st n = some (some w)) :
    getSlot (addValue st p) n = some (some w) := by
  unfold addValue
  by_cases hpn : p.1 = n
  · rw [hpn, h]
    split_ifs <;> simp [getSlot_pushVal, h]
  · cases hs : getSlot st p.1 with
    | none => split_ifs <;> simp [getSlot_pushVal, h]
    | some o =>
      cases o with
      | none =>
        simp only [setSlot_strict]
        split_ifs <;>
          simp [getSlot_pushVal, getSlot_setSlot_ne st p.2 (Ne.symm hpn), h]
      | some u => split_ifs <;> simp [getSlot_pushVal, h]

theorem getSlot_addValue_first {st : PP} {p : Str × Str}
    (h : getSlot st p.1 = some none) :
    getSlot (addValue st p) p.1 = some (some p.2) := by
  have hsome : (getSlot st p.1).isSome := by rw [h]; rfl
  unfold addValue
  rw [h]
  simp only [setSlot_strict]
  split_ifs <;> simp [getSlot_pushVal, getSlot_setSlot_self p.2 hsome]

theorem getSlot_addValue_ne {st : PP} {p : Str × Str} {n : Str}
    (hne : n ≠ p.1) :
    getSlot (addValue st p) n = getSlot st n := by
  unfold addValue
  cases hs : getSlot st p.1 with
  | none => split_ifs <;> simp [getSlot_pushVal]
  | some o =>
    cases o with
    | none =>
      simp only [setSlot_strict]
      split_ifs <;> simp [getSlot_pushVal, getSlot_setSlot_ne st p.2 hne]
    | some u => split_ifs <;> simp [getSlot_pushVal]

theorem foldl_addValue_slot_keep (pairs : List (Str × Str)) :
    ∀ st n w, getSlot st n = some (some w) →
      getSlot (pairs.foldl addValue st) n = some (some w) := by
  induction pairs with
  | nil => intro st n w h; simpa using h
  | cons p rest ih =>
    intro st n w h
    rw [List.foldl_cons]
    exact ih _ _ _ (getSlot_addValue_filled h)

theorem addValue_vals_nonstrict (st : PP) (p : Str × Str)
    (h : st.strict = false) :
    (addValue st p).vals = st.vals ++ [p] := by
  unfold addValue
  cases hs : getSlot st p.1 with
  | none => simp [h, pushVal_vals]
  | some o =>
    cases o with
    | none => simp [h, setSlot_strict, setSlot_vals, pushVal_vals]
    | some w => simp [h, pushVal_vals]

theorem foldl_addValue_vals_nonstrict (pairs : List (Str × Str)) :
    ∀ st, st.strict = false →
      (pairs.foldl addValue st).vals = st.vals ++ pairs ∧
      (pairs.foldl addValue st).strict = false := by
  induction pairs with
  | nil => intro st h; exact ⟨by simp, h⟩
  | cons p rest ih =>
    intro st h
    have h1 : (addValue st p).strict = false := by rw [addValue_strict]; exact h
    have hrec := ih (addValue st p) h1
    rw [List.foldl_cons]
    refine ⟨?_, hrec.2⟩
    rw [hrec.1, addValue_vals_nonstrict st p h]
    simp

theorem foldl_addValue_dedup (pairs : List (Str × Str)) :
    ∀ st seen, st.strict = true →
      (∀ n, n ∈ rfcNames → (n ∈ seen ↔ ∃ w, getSlot st n = some (some w))) →
      pairs.foldl addValue st = (dropLaterRfc seen pairs).foldl addValue st := by
  induction pairs with
  | nil => intro st seen _ _; simp [dropLaterRfc]
  | cons p rest ih =>
    intro st seen hs hinv
    unfold dropLaterRfc
    by_cases hdrop : p.1 ∈ rfcNames ∧ p.1 ∈ seen
    · rw [if_pos hdrop]
      obtain ⟨w, hw⟩ := (hinv p.1 hdrop.1).mp hdrop.2
      have hAdd : addValue st p = st := by
        unfold addValue
        rw [hw]
        simp [hs]
      rw [List.foldl_cons, hAdd]
      exact ih st seen hs hinv
    · rw [if_neg hdrop, List.foldl_cons, List.foldl_cons]
      apply ih (addValue st p) (p.1 :: seen)
        (by rw [addValue_strict]; exact hs)
      intro n hn
      constructor
      · intro hmem
        rcases List.mem_cons.mp hmem with hnp | hnseen
        · rw [hnp]
          have hrf : p.1 ∈ rfcNames := hnp ▸ hn
          cases ho : getSlot st p.1 with
          | none =>
            have hsm := getSlot_isSome_of_mem st hrf
            rw [ho] at hsm
            simp at hsm
          | some o =>
            cases o with
            | none => exact ⟨p.2, getSlot_addValue_first ho⟩
            | some w => exact ⟨w, getSlot_addValue_filled ho⟩
        · obtain ⟨w, hw⟩ := (hinv n hn).mp hnseen
          exact ⟨w, getSlot_addValue_filled hw⟩
      · intro hfill
        obtain ⟨w, hw⟩ := hfill
        by_cases hnp : n = p.1
        · exact List.mem_cons.mpr (Or.inl hnp)
        · rw [getSlot_addValue_ne hnp] at hw
          exact List.mem_cons.mpr (Or.inr ((hinv n hn).mpr ⟨w, hw⟩))

theorem foldl_addValue_slot_first (pairs : List (Str × Str)) :
    ∀ st n, n ∈ rfcNames → getSlot st n = some none →
      getSlot (pairs.foldl addValue st) n =
        some ((pairs.find? (fun p => p.1 = n)).map (·.2)) := by
  induction pairs with
  | nil => intro st n _ h; simpa using h
  | cons p rest ih =>
    intro st n hn h
    rw [List.foldl_cons]
    by_cases hpn : p.1 = n
    · have hfirst : getSlot (addValue st p) n = some (some p.2) := by
        rw [← hpn] at h ⊢
        exact getSlot_addValue_first h
      rw [foldl_addValue_slot_keep rest _ _ _ hfirst]
      simp [List.find?_cons, hpn]
    · simp only [List.find?_cons, decide_eq_false hpn]
      exact ih (addValue st p) n hn
        (by rw [getSlot_addValue_ne (Ne.symm hpn)]; exact h)

/-- Claim C5: in non-strict mode every parameter occurrence passes
through unchanged; in strict mode later occurrences of the five tracked
names `rel`, `media`, `type`, `title`, `title*` are silently invisible
to the parser (the parse equals the parse of the input with them
deleted, and no error is raised — `add_value` is a total function), and
the retained slot value for each tracked name is the first-seen one. -/
theorem claim_c5_first_wins :
    (∀ pairs : List (Str × Str),
      ppValues (pairs.foldl addValue (initPP false)) = pairs) ∧
    (∀ pairs : List (Str × Str),
      pairs.foldl addValue (initPP true) =
        (dropLaterRfc [] pairs).foldl addValue (initPP true)) ∧
    (∀ pairs : List (Str × Str), ∀ n, n ∈ rfcNames →
      getSlot (pairs.foldl addValue (initPP true)) n =
        some ((pairs.find? (fun p => p.1 = n)).map (·.2))) := by
  refine ⟨?_, ?_, ?_⟩
  · intro pairs
    have h := foldl_addValue_vals_nonstrict pairs (initPP false) rfl
    unfold ppValues
    rw [if_neg (by rw [h.2]; simp)]
    simpa using h.1
  · intro pairs
    refine foldl_addValue_dedup pairs (initPP true) [] rfl ?_
    intro n hn
    constructor
    · intro hmem
      simp at hmem
    · intro hfill
      obtain ⟨w, hw⟩ := hfill
      rw [initPP_slot true hn] at hw
      simp at hw
  · intro pairs n hn
    exact foldl_addValue_slot_first pairs (initPP true) n hn
      (initPP_slot true hn)

/-- Claim C5 witness: a duplicated `media` parameter in strict mode is
dropped without an error and the first value is retained. -/
theorem claim_c5_witness :
    mediaKey ∈ rfcNames ∧
    getSlot ([(mediaKey, pstr "one"), (mediaKey, pstr "two")].foldl addValue
        (initPP true)) mediaKey =
      some (([(mediaKey, pstr "one"), (mediaKey, pstr "two")].find?
        (fun p => p.1 = mediaKey)).map (·.2)) :=
  ⟨by decide, claim_c5_first_wins.2.2 _ mediaKey (by decide)⟩

theorem foldl_addValue_strict (pairs : List (Str × Str)) :
    ∀ st : PP, (pairs.foldl addValue st).strict = st.strict := by
  induction pairs with
  | nil => intro st; rfl
  | cons p rest ih =>
    intro st
    rw [List.foldl_cons, ih, addValue_strict]

theorem getSlot_titleKey (st : PP) : getSlot st titleKey = some st.mtitle := rfl

theorem getSlot_titleStarKey (st : PP) :
    getSlot st titleStarKey = some st.mtitleStar := rfl

theorem addValue_vals_no_title {st : PP} {p : Str × Str}
    (hs : st.strict = true)
    (hv : ∀ q ∈ st.vals, q.1 ≠ titleKey ∧ q.1 ≠ titleStarKey) :
    ∀ q ∈ (addValue st p).vals, q.1 ≠ titleKey ∧ q.1 ≠ titleStarKey := by
  unfold addValue
  cases hslot : getSlot st p.1 with
  | none =>
    have hnt : p.1 ≠ titleKey := by
      intro e
      rw [e, getSlot_titleKey] at hslot
      exact Option.noConfusion hslot
    have hnts : p.1 ≠ titleStarKey := by
      intro e
      rw [e, getSlot_titleStarKey] at hslot
      exact Option.noConfusion hslot
    split_ifs
    · exact hv
    · intro q hq
      rw [pushVal_vals] at hq
      rcases List.mem_append.mp hq with hq | hq
      · exact hv q hq
      · rw [List.mem_singleton.mp hq]
        exact ⟨hnt, hnts⟩
  | some o =>
    cases o with
    | none =>
      simp only [setSlot_strict, hs, true_and]
      split_ifs with hcond
      · intro q hq
        rw [setSlot_vals] at hq
        exact hv q hq
      · intro q hq
        rw [pushVal_vals, setSlot_vals] at hq
        rcases List.mem_append.mp hq with hq | hq
        · exact hv q hq
        · rw [List.mem_singleton.mp hq]
          push_neg at hcond
          exact hcond
    | some w =>
      rw [if_pos hs]
      exact hv

theorem foldl_addValue_vals_no_title (pairs : List (Str × Str)) :
    ∀ st : PP, st.strict = true →
      (∀ q ∈ st.vals, q.1 ≠ titleKey ∧ q.1 ≠ titleStarKey) →
      ∀ q ∈ (pairs.foldl addValue st).vals,
        q.1 ≠ titleKey ∧ q.1 ≠ titleStarKey := by
  induction pairs with
  | nil => intro st _ hv; exact hv
  | cons p rest ih =>
    intro st hs hv
    rw [List.foldl_cons]
    exact ih (addValue st p) (by rw [addValue_strict]; exact hs)
      (addValue_vals_no_title hs hv)

theorem mapE_get? {f : α → Except ε β} {l : List α} {out : List β}
    (h : mapE f l = .ok out) :
    ∀ {i : Nat} {a : α}, l.get? i = some a →
      ∃ b, out.get? i = some b ∧ f a = .ok b := by
  induction l generalizing out with
  | nil => intro i a ha; simp at ha
  | cons x xs ih =>
    intro i a ha
    cases hfx : f x with
    | error e =>
      rw [mapE, hfx] at h
      exact absurd h (by simp [Bind.bind, Except.bind])
    | ok b0 =>
      cases hrest : mapE f xs with
      | error e =>
        rw [mapE, hfx, hrest] at h
        exact absurd h (by simp [Bind.bind, Except.bind])
      | ok bs =>
        have hout : out = b0 :: bs := by
          rw [mapE, hfx, hrest] at h
          simp [Bind.bind, Except.bind, pure, Except.pure] at h
          exact h.symm
        subst hout
        cases i with
        | zero =>
          simp only [List.get?_cons_zero, Option.some.injEq] at ha
          exact ⟨b0, by simp, by rw [← ha]; exact hfx⟩
        | succ n =>
          simp only [List.get?_cons_succ] at ha ⊢
          exact ih hrest ha

theorem parse_link_raw {v : Str} {raws : List (Str × List Str)}
    (h : linkRawOf v = .ok raws) (strict : Bool) :
    parse_link v strict = mapE
      (fun tp => do
        let pairs ← parseParamList false true true tp.2
        pure (⟨tp.1, ppValues (pairs.foldl addValue (initPP strict))⟩ :
          LinkHeader))
      raws := by
  unfold parse_link
  unfold linkRawOf at h
  cases hq : linkQuotePass (removeComments v) with
  | error e =>
    rw [hq] at h
    exact absurd h (by simp [Bind.bind, Except.bind])
  | ok buf =>
    rw [hq] at h
    simp only [Bind.bind, Except.bind] at h ⊢
    rw [h]

/-- Claim C4: for any Link header value parsed in strict mode, if the
parameter pairs fed to the `ParameterParser` for some link contain both
a `title` and a `title*` name, the resulting `LinkHeader`'s parameter
list ends with `('title*', v)` immediately followed by `('title', v)`
where `v` is the first-seen `title*` value, and no other `title` or
`title*` pair appears — in particular the original `title` value is
gone. -/
theorem claim_c4_title_override :
    ∀ v links raws i l tp pairs,
      parse_link v true = .ok links →
      linkRawOf v = .ok raws →
      links.get? i = some l →
      raws.get? i = some tp →
      parseParamList false true true tp.2 = .ok pairs →
      pairs.any (fun p => p.1 = titleKey) = true →
      pairs.any (fun p => p.1 = titleStarKey) = true →
      ∃ pt others,
        (pairs.find? (fun p => p.1 = titleStarKey)).map (·.2) = some pt ∧
        l.parameters = others ++ [(titleStarKey, pt), (titleKey, pt)] ∧
        ∀ q ∈ others, q.1 ≠ titleKey ∧ q.1 ≠ titleStarKey := by
  intro v links raws i l tp pairs hpl hraw hgetl hgett hpp hat hast
  rw [parse_link_raw hraw true] at hpl
  obtain ⟨b, hob, hfb⟩ := mapE_get? hpl hgett
  rw [hgetl] at hob
  obtain rfl := Option.some.inj hob
  rw [hpp] at hfb
  simp only [Bind.bind, Except.bind, pure, Except.pure, Except.ok.injEq] at hfb
  have hstar := foldl_addValue_slot_first pairs (initPP true) titleStarKey
    (by decide) (initPP_slot true (by decide))
  have htit := foldl_addValue_slot_first pairs (initPP true) titleKey
    (by decide) (initPP_slot true (by decide))
  rw [getSlot_titleStarKey] at hstar
  rw [getSlot_titleKey] at htit
  have hstar' := Option.some.inj hstar
  have htit' := Option.some.inj htit
  have hstarSome : (pairs.find? (fun p => p.1 = titleStarKey)).isSome := by
    rw [List.find?_isSome]
    exact List.any_eq_true.mp hast
  have htitSome : (pairs.find? (fun p => p.1 = titleKey)).isSome := by
    rw [List.find?_isSome]
    exact List.any_eq_true.mp hat
  obtain ⟨fs, hfs⟩ := Option.isSome_iff_exists.mp hstarSome
  obtain ⟨ft, hft⟩ := Option.isSome_iff_exists.mp htitSome
  refine ⟨fs.2, (pairs.foldl addValue (initPP true)).vals, ?_, ?_, ?_⟩
  · rw [hfs]
    rfl
  · rw [← hfb]
    have hsticky : (pairs.foldl addValue (initPP true)).strict = true := by
      rw [foldl_addValue_strict]
      rfl
    unfold ppValues
    rw [if_pos hsticky]
    rw [hstar', htit', hfs, hft]
    rfl
  · exact foldl_addValue_vals_no_title pairs (initPP true) rfl
      (by intro q hq; simp [initPP] at hq)

/-- Claim C4 witness: `<>; title=t1; title*=t2` in strict mode. -/
theorem claim_c4_witness :
    parse_link (pstr "<>; title=t1; title*=t2") true =
      .ok [⟨[], [(titleStarKey, pstr "t2"), (titleKey, pstr "t2")]⟩] ∧
    (∃ pt others,
      ([(titleKey, pstr "t1"), (titleStarKey, pstr "t2")].find?
        (fun p => p.1 = titleStarKey)).map (·.2) = some pt ∧
      (⟨[], [(titleStarKey, pstr "t2"), (titleKey, pstr "t2")]⟩ :
        LinkHeader).parameters = others ++ [(titleStarKey, pt), (titleKey, pt)] ∧
      ∀ q ∈ others, q.1 ≠ titleKey ∧ q.1 ≠ titleStarKey) :=
  ⟨by rfl,
    claim_c4_title_override (pstr "<>; title=t1; title*=t2")
      [⟨[], [(titleStarKey, pstr "t2"), (titleKey, pstr "t2")]⟩]
      [([], [pstr "title=t1", pstr "title*=t2"])] 0
      ⟨[], [(titleStarKey, pstr "t2"), (titleKey, pstr "t2")]⟩
      ([], [pstr "title=t1", pstr "title*=t2"])
      [(titleKey, pstr "t1"), (titleStarKey, pstr "t2")]
      (by rfl) (by rfl) (by rfl) (by rfl) (by rfl) (by decide) (by decide)⟩

/-! Claim C2: the exact-match rule of `select_content_type`. -/

theorem ctEq_typeMatches {c p : CT} (h : ctEq c p = true) :
    typeMatches c p = true := by
  unfold ctEq at h
  simp only [Bool.and_eq_true, decide_eq_true_eq] at h
  unfold typeMatches wildcardCompare
  simp [h.1.1.1, h.1.1.2]

theorem scanCands_no_exact {patt : CT} (cands : List CT)
    (h : ∀ c ∈ cands, ctEq c patt = false) :
    ∀ acc, ∃ acc', scanCands patt cands acc = .cont acc' := by
  induction cands with
  | nil => intro acc; exact ⟨acc, rfl⟩
  | cons c rest ih =>
    intro acc
    have hc := h c (by simp)
    have hrest : ∀ x ∈ rest, ctEq x patt = false := fun x hx =>
      h x (List.mem_cons_of_mem _ hx)
    unfold scanCands
    cases hm : typeMatches c patt with
    | true =>
      simp only [hm, if_true, hc, Bool.false_eq_true, if_false]
      exact ih hrest (acc ++ [mkMatch c patt])
    | false =>
      simp only [hm, Bool.false_eq_true, if_false]
      exact ih hrest acc
  
theorem scanCands_first_exact {patt : CT} (cands : List CT) {c : CT}
    (h : cands.find? (fun x => ctEq x patt) = some c) :
    ∀ acc, scanCands patt cands acc =
      .halt (if extractQuality patt = 0 then .error .noMatch
             else .ok (c, patt)) := by
  induction cands with
  | nil => simp at h
  | cons c0 rest ih =>
    intro acc
    rw [List.find?_cons] at h
    cases hc0 : ctEq c0 patt with
    | true =>
      rw [hc0] at h
      simp only [Option.some.injEq] at h
      subst h
      unfold scanCands
      simp only [ctEq_typeMatches hc0, if_true, hc0]
      split_ifs <;> rfl
    | false =>
      rw [hc0] at h
      unfold scanCands
      cases hm : typeMatches c0 patt with
      | true =>
        simp only [hm, if_true, hc0, Bool.false_eq_true, if_false]
        exact ih h _
      | false =>
        simp only [hm, Bool.false_eq_true, if_false]
        exact ih h _

theorem negotiateGo_first_exact :
    ∀ pats cands acc p c,
      firstExactIn pats cands = some (p, c) →
      negotiateGo pats cands acc =
        .halted (if extractQuality p = 0 then .error .noMatch
                 else .ok (c, p)) := by
  intro pats
  induction pats with
  | nil => intro cands acc p c h; simp [firstExactIn] at h
  | cons p0 rest ih =>
    intro cands acc p c h
    unfold firstExactIn at h
    cases hf : cands.find? (fun x => ctEq x p0) with
    | some c0 =>
      rw [hf] at h
      simp only [Option.some.injEq, Prod.mk.injEq] at h
      obtain ⟨h1, h2⟩ := h
      subst h1
      subst h2
      unfold negotiateGo
      rw [scanCands_first_exact cands hf acc]
    | none =>
      rw [hf] at h
      have hnone : ∀ x ∈ cands, ctEq x p0 = false := by
        intro x hx
        have := List.find?_eq_none.mp hf x hx
        simpa using this
      obtain ⟨acc', hacc⟩ := scanCands_no_exact cands hnone acc
      unfold negotiateGo
      rw [hacc]
      exact ih cands acc' p c h

/-- Claim C2: whenever the matching loops of `select_content_type`
encounter a candidate exactly equal to a pattern (the first such pair in
scan order: patterns in quality-descending order, candidates in
`ContentType` order), the call raises `NoMatch` if that pattern's
quality is `0.0`, and otherwise returns the candidate paired with the
pattern immediately. -/
theorem claim_c2_exact_match :
    ∀ requested available p c,
      firstExactIn
        (pySortLt (fun a b => decide (extractQuality b < extractQuality a))
          requested)
        (pySortLt ctLt available) = some (p, c) →
      select_content_type requested available =
        (if extractQuality p = 0 then .error .noMatch else .ok (c, p)) := by
  intro requested available p c h
  unfold select_content_type negotiate
  rw [negotiateGo_first_exact _ _ [] p c h]

/-- Claim C2 witness: a zero-quality pattern exactly matching the only
candidate raises `NoMatch`. -/
theorem claim_c2_witness :
    firstExactIn
      (pySortLt (fun a b => decide (extractQuality b < extractQuality a))
        [⟨pstr "text", pstr "javascript", [], none, some 0⟩])
      (pySortLt ctLt [⟨pstr "text", pstr "javascript", [], none, none⟩]) =
      some (⟨pstr "text", pstr "javascript", [], none, some 0⟩,
        ⟨pstr "text", pstr "javascript", [], none, none⟩) ∧
    select_content_type [⟨pstr "text", pstr "javascript", [], none, some 0⟩]
      [⟨pstr "text", pstr "javascript", [], none, none⟩] =
      .error .noMatch := by
  constructor
  · rfl
  · have h := claim_c2_exact_match
      [⟨pstr "text", pstr "javascript", [], none, some 0⟩]
      [⟨pstr "text", pstr "javascript", [], none, none⟩]
      ⟨pstr "text", pstr "javascript", [], none, some 0⟩
      ⟨pstr "text", pstr "javascript", [], none, none⟩ (by rfl)
    rw [if_pos (by rfl)] at h
    exact h

/-! Claim C8: the spec-modelled `default` handling. -/

theorem insertLt_mem {lt : α → α → Bool} {x y : α} {l : List α} :
    y ∈ insertLt lt x l ↔ y = x ∨ y ∈ l := by
  induction l with
  | nil => simp [insertLt]
  | cons a as ih =>
    unfold insertLt
    split_ifs with h
    · simp [or_comm, or_assoc, or_left_comm]
    · simp [ih]
      tauto

theorem pySortLt_mem {lt : α → α → Bool} {l : List α} {y : α} :
    y ∈ pySortLt lt l ↔ y ∈ l := by
  induction l with
  | nil => simp [pySortLt]
  | cons a as ih =>
    unfold pySortLt at ih ⊢
    rw [List.foldr_cons, insertLt_mem, ih]
    simp

theorem scanCands_nomatch {patt : CT} (cands : List CT)
    (h : ∀ c ∈ cands, typeMatches c patt = false) :
    ∀ acc, scanCands patt cands acc = .cont acc := by
  induction cands with
  | nil => intro acc; rfl
  | cons c rest ih =>
    intro acc
    have hc := h c (by simp)
    unfold scanCands
    simp only [hc, Bool.false_eq_true, if_false]
    exact ih (fun x hx => h x (List.mem_cons_of_mem _ hx)) acc

theorem negotiateGo_nomatch :
    ∀ pats cands,
      (∀ p ∈ pats, ∀ c ∈ cands, typeMatches c p = false) →
      negotiateGo pats cands [] = .nomatches := by
  intro pats
  induction pats with
  | nil => intro cands _; rfl
  | cons p0 rest ih =>
    intro cands h
    unfold negotiateGo
    rw [scanCands_nomatch cands (h p0 (by simp)) []]
    exact ih cands (fun p hp c hc => h p (List.mem_cons_of_mem _ hp) c hc)

theorem negotiate_nomatch (requested available : List CT)
    (h : ∀ p ∈ requested, ∀ c ∈ available, typeMatches c p = false) :
    negotiate requested available = .nomatches := by
  unfold negotiate
  apply negotiateGo_nomatch
  intro p hp c hc
  exact h p (pySortLt_mem.mp hp) c (pySortLt_mem.mp hc)

/-- Claim C8 (spec-modelled `default` argument): a supplied default that
is not a member of `available` fails with `InvalidArgument` (before any
matching), and when no candidate matches any pattern a valid default is
returned paired with itself instead of `NoMatch`. -/
theorem claim_c8_default :
    ∀ requested available d,
      (available.any (fun a => ctEq d a) = false →
        select_content_type_default requested available (some d) =
          .error .invalidArgument) ∧
      (available.any (fun a => ctEq d a) = true →
        (∀ p ∈ requested, ∀ c ∈ available, typeMatches c p = false) →
        select_content_type_default requested available (some d) =
          .ok (d, d)) := by
  intro req av d
  have hred : select_content_type_default req av (some d) =
      if (av.any fun a => ctEq d a) = true then
        (match negotiate req av with
         | .halted r => r
         | .nomatches => .ok (d, d)
         | .best m => .ok (m.candidate, m.pattern))
      else .error .invalidArgument := rfl
  constructor
  · intro hmem
    rw [hred, if_neg (by simp [hmem])]
  · intro hmem hnom
    rw [hred, if_pos hmem, negotiate_nomatch req av hnom]

/-- Claim C8 witness: `text/html` requested, only `application/json`
available, default `application/json`. -/
theorem claim_c8_witness :
    ([(⟨pstr "application", pstr "json", [], none, none⟩ : CT)].any
      (fun a => ctEq ⟨pstr "application", pstr "json", [], none, none⟩ a)
        = true) ∧
    select_content_type_default
      [⟨pstr "text", pstr "html", [], none, some 1⟩]
      [⟨pstr "application", pstr "json", [], none, none⟩]
      (some ⟨pstr "application", pstr "json", [], none, none⟩) =
      .ok (⟨pstr "application", pstr "json", [], none, none⟩,
        ⟨pstr "application", pstr "json", [], none, none⟩) :=
  ⟨by decide,
    (claim_c8_default [⟨pstr "text", pstr "html", [], none, some 1⟩]
      [⟨pstr "application", pstr "json", [], none, none⟩]
      ⟨pstr "application", pstr "json", [], none, none⟩).2
      (by decide) (by decide)⟩

/-! Claim C6: output structure of `_parse_qualified_list`. -/

theorem insertLt_perm (lt : α → α → Bool) (x : α) (l : List α) :
    (insertLt lt x l).Perm (x :: l) := by
  induction l with
  | nil => simp [insertLt]
  | cons y ys ih =>
    unfold insertLt
    split_ifs
    · exact List.Perm.refl _
    · exact (ih.cons y).trans (List.Perm.swap x y ys)

theorem pySortLt_perm (lt : α → α → Bool) (l : List α) :
    (pySortLt lt l).Perm l := by
  induction l with
  | nil => simp [pySortLt]
  | cons x xs ih =>
    unfold pySortLt at ih ⊢
    rw [List.foldr_cons]
    exact (insertLt_perm lt x _).trans (ih.cons x)

theorem insertLt_chain {lt : α → α → Bool}
    (hasym : ∀ a b, lt a b = true → lt b a = false)
    {l : List α} (hl : l.Chain' (fun a b => lt b a = false)) (x : α) :
    (insertLt lt x l).Chain' (fun a b => lt b a = false) := by
  induction l with
  | nil => simp [insertLt]
  | cons y ys ih =>
    unfold insertLt
    by_cases h : lt x y = true
    · rw [if_pos h]
      exact List.Chain'.cons (hasym x y h) hl
    · rw [if_neg h]
      have hne : lt x y = false := by
        cases hxy : lt x y
        · rfl
        · exact absurd hxy h
      cases ys with
      | nil =>
        simp only [insertLt]
        exact List.chain'_pair.mpr hne
      | cons z zs =>
        unfold insertLt
        by_cases hz : lt x z = true
        · rw [if_pos hz]
          refine List.chain'_cons.mpr ⟨hne, ?_⟩
          exact List.chain'_cons.mpr ⟨hasym x z hz, (List.chain'_cons.mp hl).2⟩
        · rw [if_neg hz]
          refine List.chain'_cons.mpr ⟨(List.chain'_cons.mp hl).1, ?_⟩
          have hrec := ih (List.Chain'.tail hl)
          unfold insertLt at hrec
          rw [if_neg hz] at hrec
          exact hrec
  
theorem pySortLt_chain {lt : α → α → Bool}
    (hasym : ∀ a b, lt a b = true → lt b a = false) (l : List α) :
    (pySortLt lt l).Chain' (fun a b => lt b a = false) := by
  induction l with
  | nil => simp [pySortLt]
  | cons x xs ih =>
    unfold pySortLt at ih ⊢
    rw [List.foldr_cons]
    exact insertLt_chain hasym ih x

theorem pairLt_asymm {a b : ℚ × Str} (h : pairLt a b = true) :
    pairLt b a = false := by
  unfold pairLt at h ⊢
  simp only [Bool.or_eq_true, Bool.and_eq_true, decide_eq_true_eq] at h
  simp only [Bool.or_eq_false_iff, Bool.and_eq_false_iff, decide_eq_false_iff_not]
  rcases h with h | ⟨heq, hstr⟩
  · exact ⟨not_lt.mpr (le_of_lt h), Or.inl (ne_of_gt h)⟩
  · exact ⟨not_lt.mpr (le_of_eq heq), Or.inr (strLt_asymm hstr)⟩

theorem qualStep_cases {highest : ℚ} {st : QualState} {raw : Str}
    {st1 : QualState} (h : qualStep highest st raw = .ok st1) :
    (st1.foundWildcard = true ↔
      st.foundWildcard = true ∨ charsetOf raw = star) ∧
    (st1.rejected = st.rejected ∨
      st1.rejected = st.rejected ++ [charsetOf raw]) := by
  unfold qualStep at h
  by_cases hs : (partitionChar ';' (removeAllChar ' ' raw)).1 = star
  · rw [if_pos hs] at h
    simp only [pure, Except.pure, Except.ok.injEq] at h
    subst h
    exact ⟨by simp [charsetOf, hs], Or.inl rfl⟩
  · rw [if_neg hs] at h
    cases hpp : parseParamList false true false
        (splitOn ';' (partitionChar ';' (removeAllChar ' ' raw)).2.2) with
    | error e =>
      rw [hpp] at h
      exact absurd h (by simp [Bind.bind, Except.bind])
    | ok ps =>
      rw [hpp] at h
      simp only [Bind.bind, Except.bind] at h
      cases hact : dictGet (dictOf ps) qKey with
      | none =>
        simp only [hact, pure, Except.pure] at h
        by_cases hlt : st.dflt < mkRat 1 1000
        · rw [if_pos hlt] at h
          simp only [Except.ok.injEq] at h
          subst h
          exact ⟨by simp [charsetOf, hs], Or.inr (by simp [charsetOf])⟩
        · rw [if_neg hlt, if_neg (by simp)] at h
          simp only [Except.ok.injEq] at h
          subst h
          exact ⟨by simp [charsetOf, hs], Or.inl rfl⟩
      | some qs =>
        simp only [hact] at h
        cases hq : parseFloat qs with
        | error e =>
          rw [hq] at h
          exact absurd h (by simp [Bind.bind, Except.bind])
        | ok qv =>
          rw [hq] at h
          simp only [Bind.bind, Except.bind, pure, Except.pure] at h
          by_cases hlt : qv < mkRat 1 1000
          · rw [if_pos hlt] at h
            simp only [Except.ok.injEq] at h
            subst h
            exact ⟨by simp [charsetOf, hs], Or.inr (by simp [charsetOf])⟩
          · rw [if_neg hlt] at h
            by_cases hone : qs = oneLit
            · rw [if_pos (by rw [hone])] at h
              simp only [Except.ok.injEq] at h
              subst h
              exact ⟨by simp [charsetOf, hs], Or.inl rfl⟩
            · rw [if_neg (by simpa using hone)] at h
              simp only [Except.ok.injEq] at h
              subst h
              exact ⟨by simp [charsetOf, hs], Or.inl rfl⟩

theorem qualScan_props (highest : ℚ) :
    ∀ (l : List Str) (st st' : QualState),
      foldE (qualStep highest) st l = .ok st' →
      (st'.foundWildcard = true ↔
        st.foundWildcard = true ∨ ∃ raw ∈ l, charsetOf raw = star) ∧
      (∃ rej2, st'.rejected = st.rejected ++ rej2 ∧
        rej2.Sublist (l.map charsetOf)) := by
  intro l
  induction l with
  | nil =>
    intro st st' h
    simp only [foldE, Except.ok.injEq] at h
    subst h
    exact ⟨by simp, [], by simp, by simp⟩
  | cons raw rest ih =>
    intro st st' h
    rw [foldE] at h
    cases hstep : qualStep highest st raw with
    | error e =>
      rw [hstep] at h
      exact absurd h (by simp [Bind.bind, Except.bind])
    | ok st1 =>
      rw [hstep] at h
      simp only [Bind.bind, Except.bind] at h
      have hrec := ih st1 st' h
      have hone := qualStep_cases hstep
      constructor
      · rw [hrec.1]
        rw [hone.1]
        constructor
        · rintro ((hfw | hcs) | ⟨r, hr, hcr⟩)
          · exact Or.inl hfw
          · exact Or.inr ⟨raw, by simp, hcs⟩
          · exact Or.inr ⟨r, by simp [hr], hcr⟩
        · rintro (hfw | ⟨r, hr, hcr⟩)
          · exact Or.inl (Or.inl hfw)
          · rcases List.mem_cons.mp hr with rfl | hr
            · exact Or.inl (Or.inr hcr)
            · exact Or.inr ⟨r, hr, hcr⟩
      · obtain ⟨rej2, hrej, hsub⟩ := hrec.2
        rcases hone.2 with h1 | h1
        · refine ⟨rej2, by rw [hrej, h1], ?_⟩
          exact hsub.trans (List.sublist_cons_self _ _)
        · refine ⟨charsetOf raw :: rej2, ?_, ?_⟩
          · rw [hrej, h1]
            simp
          · rw [List.map_cons]
            exact List.Sublist.cons₂ _ hsub

/-- Claim C6: a successful `_parse_qualified_list` run yields the
accepted tokens first, ordered by non-increasing rank (a permutation of
the loop's rank-annotated accepted bucket), then the literal `*` exactly
when a wildcard token occurred anywhere in the input, then the rejected
(`q < 0.001`) tokens as an order-preserving subsequence of the input
tokens. -/
theorem claim_c6_qualified_order :
    ∀ v out, parseQualifiedList v = .ok out →
      ∃ parsed st pairs,
        parse_list v = .ok parsed ∧
        foldE (qualStep (qadd ((parsed.length + 1 : Nat) : ℚ) 1))
          ⟨false, [], [], ((parsed.length + 1 : Nat) : ℚ)⟩ parsed = .ok st ∧
        st.vals.Perm pairs ∧
        pairs.Chain' (fun a b => b.1 ≤ a.1) ∧
        out = pairs.map (·.2) ++ (if st.foundWildcard then [star] else [])
          ++ st.rejected ∧
        (st.foundWildcard = true ↔ ∃ raw ∈ parsed, charsetOf raw = star) ∧
        st.rejected.Sublist (parsed.map charsetOf) := by
  intro v out h
  unfold parseQualifiedList at h
  cases hp : parse_list v with
  | error e =>
    rw [hp] at h
    exact absurd h (by simp [Bind.bind, Except.bind])
  | ok parsed =>
    rw [hp] at h
    simp only [Bind.bind, Except.bind] at h
    cases hf : foldE (qualStep (qadd ((parsed.length + 1 : Nat) : ℚ) 1))
        ⟨false, [], [], ((parsed.length + 1 : Nat) : ℚ)⟩ parsed with
    | error e =>
      rw [hf] at h
      exact absurd h (by simp)
    | ok st =>
      rw [hf] at h
      simp only [pure, Except.pure, Except.ok.injEq] at h
      have hprops := qualScan_props _ _ _ _ hf
      refine ⟨parsed, st, pySortLt (fun a b => pairLt b a) st.vals,
        rfl, hf, (pySortLt_perm _ _).symm, ?_, h.symm, ?_, ?_⟩
      · have hch := @pySortLt_chain _ (fun a b => pairLt b a)
          (fun a b hab => pairLt_asymm hab) st.vals
        refine hch.imp ?_
        intro a b hab
        unfold pairLt at hab
        simp only [Bool.or_eq_false_iff, Bool.and_eq_false_iff,
          decide_eq_false_iff_not] at hab
        exact not_lt.mp hab.1
      · rw [hprops.1]
        simp
      · obtain ⟨rej2, hrej, hsub⟩ := hprops.2
        simpa [hrej] using hsub

/-- Claim C6 witness: `rejected;q=0, *` parses to `['*', 'rejected']`. -/
theorem claim_c6_witness :
    parseQualifiedList (pstr "rejected;q=0, *") =
      .ok [star, pstr "rejected"] ∧
    (∃ parsed st pairs,
      parse_list (pstr "rejected;q=0, *") = .ok parsed ∧
      foldE (qualStep (qadd ((parsed.length + 1 : Nat) : ℚ) 1))
        ⟨false, [], [], ((parsed.length + 1 : Nat) : ℚ)⟩ parsed = .ok st ∧
      st.vals.Perm pairs ∧
      pairs.Chain' (fun a b => b.1 ≤ a.1) ∧
      [star, pstr "rejected"] = pairs.map (·.2) ++
        (if st.foundWildcard then [star] else []) ++ st.rejected ∧
      (st.foundWildcard = true ↔
        ∃ raw ∈ parsed, charsetOf raw = star) ∧
      st.rejected.Sublist (parsed.map charsetOf)) :=
  ⟨by decide, claim_c6_qualified_order (pstr "rejected;q=0, *")
    [star, pstr "rejected"] (by decide)⟩

theorem insertCmp_perm (cmp : α → α → Int) (x : α) (l : List α) :
    (insertCmp cmp x l).Perm (x :: l) := by
  induction l with
  | nil => simp [insertCmp]
  | cons y ys ih =>
    unfold insertCmp
    split_ifs
    · exact List.Perm.refl _
    · exact (ih.cons y).trans (List.Perm.swap x y ys)

theorem pySortCmp_perm (cmp : α → α → Int) (l : List α) :
    (pySortCmp cmp l).Perm l := by
  induction l with
  | nil => simp [pySortCmp]
  | cons x xs ih =>
    unfold pySortCmp at ih ⊢
    rw [List.foldr_cons]
    exact (insertCmp_perm cmp x _).trans (ih.cons x)

theorem insertCmp_chain {cmp : α → α → Int} {μ : α → ℚ}
    (hlt : ∀ a b, cmp a b < 0 → μ b ≤ μ a)
    (hge : ∀ a b, 0 ≤ cmp a b → μ a ≤ μ b)
    {l : List α} (hl : l.Chain' (fun a b => μ b ≤ μ a)) (x : α) :
    (insertCmp cmp x l).Chain' (fun a b => μ b ≤ μ a) := by
  induction l with
  | nil => simp [insertCmp]
  | cons y ys ih =>
    unfold insertCmp
    by_cases h : cmp x y < 0
    · rw [if_pos h]
      exact List.Chain'.cons (hlt x y h) hl
    · rw [if_neg h]
      have hxy : μ x ≤ μ y := hge x y (not_lt.mp h)
      cases ys with
      | nil =>
        simp only [insertCmp]
        exact List.chain'_pair.mpr hxy
      | cons z zs =>
        unfold insertCmp
        by_cases hz : cmp x z < 0
        · rw [if_pos hz]
          refine List.chain'_cons.mpr ⟨hxy, ?_⟩
          exact List.chain'_cons.mpr ⟨hlt x z hz, (List.chain'_cons.mp hl).2⟩
        · rw [if_neg hz]
          refine List.chain'_cons.mpr ⟨(List.chain'_cons.mp hl).1, ?_⟩
          have hrec := ih (List.Chain'.tail hl)
          unfold insertCmp at hrec
          rw [if_neg hz] at hrec
          exact hrec

theorem pySortCmp_chain {cmp : α → α → Int} {μ : α → ℚ}
    (hlt : ∀ a b, cmp a b < 0 → μ b ≤ μ a)
    (hge : ∀ a b, 0 ≤ cmp a b → μ a ≤ μ b) (l : List α) :
    (pySortCmp cmp l).Chain' (fun a b => μ b ≤ μ a) := by
  induction l with
  | nil => simp [pySortCmp]
  | cons x xs ih =>
    unfold pySortCmp at ih ⊢
    rw [List.foldr_cons]
    exact insertCmp_chain hlt hge ih x

theorem acceptCmpT_lt_compat (a b : CT × Nat) (h : acceptCmpT a b < 0) :
    qualityOf b.1 ≤ qualityOf a.1 := by
  unfold acceptCmpT acceptCmp at h
  split_ifs at h with h1 h2 h3 h4
  · exact absurd h (by decide)
  · exact le_of_eq h1.symm
  · exact absurd h (by decide)
  · exact le_of_lt h4
  · exact absurd h (by decide)

theorem acceptCmpT_ge_compat (a b : CT × Nat) (h : 0 ≤ acceptCmpT a b) :
    qualityOf a.1 ≤ qualityOf b.1 := by
  unfold acceptCmpT acceptCmp at h
  split_ifs at h with h1 h2 h3 h4
  · exact le_of_eq h1
  · exact absurd h (by decide)
  · exact le_of_eq h1
  · exact absurd h (by decide)
  · exact not_lt.mp h4

theorem pySortCmpT_quality_le {l : List (CT × Nat)} {i j : Nat}
    {x y : CT × Nat} (hij : i < j)
    (hx : (pySortCmp acceptCmpT l).get? i = some x)
    (hy : (pySortCmp acceptCmpT l).get? j = some y) :
    qualityOf y.1 ≤ qualityOf x.1 := by
  have hch := @pySortCmp_chain _ acceptCmpT (fun z => qualityOf z.1)
    acceptCmpT_lt_compat acceptCmpT_ge_compat l
  haveI : IsTrans (CT × Nat) (fun a b : CT × Nat => qualityOf b.1 ≤ qualityOf a.1) :=
    ⟨fun _ _ _ h1 h2 => le_trans h2 h1⟩
  have hp := List.chain'_iff_pairwise.mp hch
  rw [List.get?_eq_some] at hx hy
  obtain ⟨hi, hxe⟩ := hx
  obtain ⟨hj, hye⟩ := hy
  have hq := (List.pairwise_iff_get.mp hp) ⟨i, hi⟩ ⟨j, hj⟩ hij
  rw [hxe, hye] at hq
  exact hq

theorem mkRat_lt_mkRat {a b : ℤ} {d : ℕ} (hd : 0 < d) :
    mkRat a d < mkRat b d ↔ a < b := by
  rw [Rat.mkRat_eq_div, Rat.mkRat_eq_div,
    div_lt_div_iff_of_pos_right (by exact_mod_cast hd)]
  exact_mod_cast Iff.rfl

theorem posOf_of_mem_nodup {out : List (CT × Nat)} {c : CT} {t : Nat}
    (hmem : (c, t) ∈ out) (hnd : (out.map Prod.snd).Nodup) :
    posOf t out < out.length ∧ out.get? (posOf t out) = some (c, t) := by
  induction out with
  | nil => cases hmem
  | cons y rest ih =>
    unfold posOf
    rw [List.findIdx_cons]
    by_cases ht : y.2 = t
    · have hy : y = (c, t) := by
        rcases List.mem_cons.mp hmem with h | h
        · exact h.symm
        · exfalso
          have htin : t ∈ rest.map Prod.snd :=
            List.mem_map.mpr ⟨(c, t), h, rfl⟩
          rw [List.map_cons] at hnd
          exact (List.nodup_cons.mp hnd).1 (ht ▸ htin)
      simp only [decide_eq_true ht, cond_true]
      exact ⟨Nat.succ_pos _, by rw [hy]; rfl⟩
    · have hm : (c, t) ∈ rest := by
        rcases List.mem_cons.mp hmem with h | h
        · exact absurd (by rw [← h]) ht
        · exact h
      rw [List.map_cons] at hnd
      obtain ⟨h1, h2⟩ := ih hm (List.nodup_cons.mp hnd).2
      unfold posOf at h1 h2
      simp only [decide_eq_false ht, cond_false]
      exact ⟨by simpa using Nat.succ_lt_succ h1, by simpa using h2⟩

theorem tagifyFrom_get? (n : ℕ) (l : List CT) (k : ℕ) :
    (tagifyFrom n l).get? k = (l.get? k).map (fun h => (h, n + k)) := by
  induction l generalizing n k with
  | nil => simp [tagifyFrom]
  | cons h t ih =>
    cases k with
    | zero => simp [tagifyFrom]
    | succ k =>
      simp only [tagifyFrom, List.get?_cons_succ]
      rw [ih (n + 1) k]
      have he : n + 1 + k = n + (k + 1) := by omega
      rw [he]

theorem tagifyFrom_map_snd (n : ℕ) (l : List CT) :
    (tagifyFrom n l).map Prod.snd = List.range' n l.length := by
  induction l generalizing n with
  | nil => simp [tagifyFrom]
  | cons h t ih => simp [tagifyFrom, ih, List.range']

theorem tagifyFrom_take (n k : ℕ) (l : List CT) :
    (tagifyFrom n l).take k = tagifyFrom n (l.take k) := by
  induction l generalizing n k with
  | nil => simp [tagifyFrom]
  | cons h t ih =>
    cases k with
    | zero => simp [tagifyFrom]
    | succ k => simp [tagifyFrom, ih]

theorem explicitCount_tagifyFrom (n : ℕ) (l : List CT) :
    explicitCount (tagifyFrom n l) = countExplicitOnes l := by
  induction l generalizing n with
  | nil => rfl
  | cons h t ih =>
    unfold explicitCount countExplicitOnes at ih ⊢
    simp only [tagifyFrom, List.countP_cons, ih]

theorem countTake_lt {hdrs : List CT} {i : ℕ} {hi : CT}
    (hget : hdrs.get? i = some hi) (hx : hasExplicitOne hi = true) :
    countExplicitOnes (hdrs.take i) < countExplicitOnes hdrs := by
  have h1 : countExplicitOnes (hdrs.take (i + 1)) =
      countExplicitOnes (hdrs.take i) + 1 := by
    unfold countExplicitOnes
    rw [List.take_succ, List.countP_append, ← List.get?_eq_getElem?, hget]
    simp [hx]
  have h2 : countExplicitOnes (hdrs.take (i + 1)) ≤ countExplicitOnes hdrs :=
    (List.take_sublist _ _).countP_le _
  omega

theorem posOf_lt_of_qual_lt {tq out : List (CT × Nat)} {i j : ℕ}
    {ci cj : CT}
    (hout : out = pySortCmp acceptCmpT tq)
    (hnd : (out.map Prod.snd).Nodup)
    (hmi : (ci, i) ∈ out) (hmj : (cj, j) ∈ out)
    (hij : i ≠ j) (hq : qualityOf cj < qualityOf ci) :
    posOf i out < posOf j out := by
  subst hout
  obtain ⟨hpi, hgi⟩ := posOf_of_mem_nodup hmi hnd
  obtain ⟨hpj, hgj⟩ := posOf_of_mem_nodup hmj hnd
  rcases lt_trichotomy (posOf i (pySortCmp acceptCmpT tq))
    (posOf j (pySortCmp acceptCmpT tq)) with h | h | h
  · exact h
  · exfalso
    rw [h, hgj] at hgi
    injection hgi with hgi
    exact hij (congrArg Prod.snd hgi).symm
  · exfalso
    have hle := pySortCmpT_quality_le h hgj hgi
    simp only at hle
    exact absurd hq (not_lt.mpr hle)

theorem assignStepT_char {x : CT × Nat} {c : Dec} {y : (CT × Nat) × Dec}
    (h : assignStepT x c = .ok y) :
    y.1.2 = x.2 ∧
    (hasNoQ x.1 = true → y.1.1.quality = some 1 ∧ y.2 = c) ∧
    (hasExplicitOne x.1 = true →
      y.1.1.quality = some (pyFloat c.val) ∧ y.2 = c.nextMinus) ∧
    (hasExplicitOne x.1 = false → y.2 = c) := by
  unfold assignStepT assignStep at h
  simp only [Bind.bind, Except.bind, pure, Except.pure, dictPop] at h
  cases hget : dictGet x.1.params qKey with
  | none =>
    rw [hget] at h
    simp only [] at h
    injection h with h
    subst h
    have hex : hasExplicitOne x.1 = false := by
      unfold hasExplicitOne; rw [hget]; rfl
    refine ⟨rfl, fun _ => ⟨rfl, rfl⟩, fun hx => ?_, fun _ => rfl⟩
    rw [hex] at hx
    exact absurd hx Bool.false_ne_true
  | some qs =>
    rw [hget] at h
    simp only [] at h
    by_cases hq : qs = oneLit
    · rw [if_pos hq] at h
      injection h with h
      subst h
      have hno : hasNoQ x.1 = false := by
        unfold hasNoQ; rw [hget]; rfl
      have hex : hasExplicitOne x.1 = true := by
        unfold hasExplicitOne; rw [hget, hq]; decide
      refine ⟨rfl, fun hx => ?_, fun _ => ⟨rfl, rfl⟩, fun hx => ?_⟩
      · rw [hno] at hx; exact absurd hx Bool.false_ne_true
      · rw [hex] at hx; exact absurd hx (by decide)
    · rw [if_neg hq] at h
      have hno : hasNoQ x.1 = false := by
        unfold hasNoQ; rw [hget]; rfl
      have hex : hasExplicitOne x.1 = false := by
        unfold hasExplicitOne; rw [hget]
        exact decide_eq_false fun heq => hq (Option.some.inj heq)
      cases hpf : parseFloat qs with
      | error e => rw [hpf] at h; simp at h
      | ok qv =>
        rw [hpf] at h
        simp only [] at h
        injection h with h
        subst h
        refine ⟨rfl, fun hx => ?_, fun hx => ?_, fun _ => rfl⟩
        · rw [hno] at hx; exact absurd hx Bool.false_ne_true
        · rw [hex] at hx; exact absurd hx Bool.false_ne_true

theorem assignQualitiesT_char (tl : List (CT × Nat)) (c : Dec)
    (tq : List (CT × Nat)) (c' : Dec)
    (h : assignQualitiesT tl c = .ok (tq, c')) :
    tq.length = tl.length ∧
    ∀ k x, tl.get? k = some x →
      ∃ ct, tq.get? k = some (ct, x.2) ∧
        (hasNoQ x.1 = true → ct.quality = some 1) ∧
        (hasExplicitOne x.1 = true →
          ct.quality =
            some (pyFloat ((Dec.nextMinus^[explicitCount (tl.take k)]) c).val)) := by
  induction tl generalizing c tq c' with
  | nil =>
    simp only [assignQualitiesT, pure, Except.pure] at h
    injection h with h
    rw [Prod.mk.injEq] at h
    obtain ⟨h1, h2⟩ := h
    subst h1
    exact ⟨rfl, fun k x hk => by simp at hk⟩
  | cons x0 t ih =>
    unfold assignQualitiesT at h
    cases hs : assignStepT x0 c with
    | error e =>
      rw [hs] at h
      simp only [Bind.bind, Except.bind] at h
      exact Except.noConfusion h
    | ok y =>
      rw [hs] at h
      simp only [Bind.bind, Except.bind] at h
      cases ht : assignQualitiesT t y.2 with
      | error e => rw [ht] at h; simp at h
      | ok tc =>
        rw [ht] at h
        simp only [pure, Except.pure] at h
        injection h with h
        rw [Prod.mk.injEq] at h
        obtain ⟨h1, h2⟩ := h
        subst h1
        obtain ⟨hlen, hall⟩ := ih y.2 tc.1 tc.2 (by rw [ht])
        obtain ⟨hc1, hcno, hcex, hcexf⟩ := assignStepT_char hs
        constructor
        · simp [hlen]
        · intro k x hk
          cases k with
          | zero =>
            simp only [List.get?_cons_zero] at hk
            injection hk with hk
            subst hk
            refine ⟨y.1.1, ?_, fun hx => (hcno hx).1, fun hx => ?_⟩
            · show some y.1 = some (y.1.1, x0.2)
              rw [← hc1]
            · rw [(hcex hx).1]
              simp [explicitCount]
          | succ k =>
            simp only [List.get?_cons_succ] at hk
            obtain ⟨ct, hget, hno, hex⟩ := hall k x hk
            refine ⟨ct, hget, hno, fun hx => ?_⟩
            rw [hex hx, List.take_succ_cons]
            cases hx0 : hasExplicitOne x0.1 with
            | true =>
              have hy2 : y.2 = c.nextMinus := (hcex hx0).2
              have hcnt : explicitCount (x0 :: t.take k) =
                  explicitCount (t.take k) + 1 := by
                unfold explicitCount
                rw [List.countP_cons]
                simp [hx0]
              rw [hcnt, Function.iterate_succ_apply, hy2]
            | false =>
              have hy2 : y.2 = c := hcexf hx0
              have hcnt : explicitCount (x0 :: t.take k) =
                  explicitCount (t.take k) := by
                unfold explicitCount
                rw [List.countP_cons]
                simp [hx0]
              rw [hcnt, hy2]

/-! C1 machinery, part 3: the counter formula under the precision-28
default context, and a lower bound on `float()` of the counter values. -/

theorem qmul_eq (a b : ℚ) : qmul a b = a * b := by
  have ha : ((a.den : ℚ)) ≠ 0 := Nat.cast_ne_zero.mpr a.den_nz
  have hb : ((b.den : ℚ)) ≠ 0 := Nat.cast_ne_zero.mpr b.den_nz
  unfold qmul
  rw [Rat.mkRat_eq_div]
  push_cast
  conv_rhs => rw [← Rat.num_div_den a, ← Rat.num_div_den b]
  field_simp

theorem norm28F_succ (fuel : Nat) (c : ℤ) (n : Nat) :
    norm28F (fuel + 1) c n =
      if c < 10 ^ 27 then norm28F fuel (10 * c) (n + 1) else ⟨c, n⟩ := rfl

theorem nextMinus_large {c : ℤ} {n : Nat} (h1 : 10 ^ 27 < c) :
    Dec.nextMinus ⟨c, n⟩ = ⟨c - 1, n⟩ := by
  unfold Dec.nextMinus
  have hs : norm28F 28 ((⟨c, n⟩ : Dec).coeff) ((⟨c, n⟩ : Dec).nexp) =
      ⟨c, n⟩ := by
    rw [show ((⟨c, n⟩ : Dec).coeff) = c from rfl,
      show ((⟨c, n⟩ : Dec).nexp) = n from rfl,
      show (28 : Nat) = 27 + 1 from rfl, norm28F_succ, if_neg (by omega)]
  rw [hs]
  rw [if_neg (show ¬(⟨c, n⟩ : Dec).coeff = 10 ^ 27 from by
    rw [show ((⟨c, n⟩ : Dec).coeff) = c from rfl]
    omega)]

set_option maxRecDepth 4000 in
theorem decIter_val {k : Nat} (hk : k + 1 ≤ 3 * 10 ^ 27) :
    Dec.nextMinus^[k + 1] decInit =
      ⟨5000000010000000000000000000 - ((k : ℤ) + 1), 27⟩ := by
  induction k with
  | zero =>
    rw [show (0 + 1 : ℕ) = 1 from rfl, Function.iterate_one]
    decide
  | succ k ih =>
    rw [Function.iterate_succ_apply', ih (by omega)]
    rw [nextMinus_large (by push_cast; omega)]
    simp only [Dec.mk.injEq, and_true]
    push_cast
    ring

theorem two_le_mkRat {a : ℤ} (h : 2 * 10 ^ 27 ≤ a) :
    (2 : ℚ) ≤ mkRat a (10 ^ 27) := by
  rw [Rat.mkRat_eq_div, le_div_iff₀ (by positivity)]
  exact_mod_cast h

theorem mkRat_lt_eight {a : ℤ} (h : a < 8 * 10 ^ 27) :
    mkRat a (10 ^ 27) < (8 : ℚ) := by
  rw [Rat.mkRat_eq_div, div_lt_iff₀ (by positivity)]
  exact_mod_cast h

theorem counterVal_bounds {k : Nat} (hk : k ≤ 3 * 10 ^ 27) :
    (2 : ℚ) ≤ (Dec.nextMinus^[k] decInit).val ∧
      (Dec.nextMinus^[k] decInit).val < 8 := by
  cases k with
  | zero => exact ⟨by decide, by decide⟩
  | succ k =>
    rw [@decIter_val k (by omega)]
    unfold Dec.val
    simp only []
    constructor
    · exact two_le_mkRat (by push_cast; omega)
    · exact mkRat_lt_eight (by push_cast; omega)

theorem floorLog2F_succ (fuel : Nat) (q : ℚ) (e : ℤ) :
    floorLog2F (fuel + 1) q e =
      if 2 ≤ q then floorLog2F fuel (qmul q (mkRat 1 2)) (e + 1)
      else if q < 1 then floorLog2F fuel (qmul q 2) (e - 1)
      else e := rfl

theorem floorLog2_two_le {q : ℚ} (h2 : 2 ≤ q) (h4 : q < 4) :
    floorLog2F 1200 q 0 = 1 := by
  have hm : ∀ r : ℚ, qmul r (mkRat 1 2) = r * (1 / 2) := fun r => by
    rw [qmul_eq]
    norm_num [Rat.mkRat_eq_div]
  rw [show (1200 : Nat) = 1199 + 1 from rfl, floorLog2F_succ, if_pos h2]
  rw [show (1199 : Nat) = 1198 + 1 from rfl, floorLog2F_succ, hm]
  rw [if_neg (by linarith), if_neg (by linarith)]
  norm_num

theorem floorLog2_four_le {q : ℚ} (h4 : 4 ≤ q) (h8 : q < 8) :
    floorLog2F 1200 q 0 = 2 := by
  have hm : ∀ r : ℚ, qmul r (mkRat 1 2) = r * (1 / 2) := fun r => by
    rw [qmul_eq]
    norm_num [Rat.mkRat_eq_div]
  rw [show (1200 : Nat) = 1199 + 1 from rfl, floorLog2F_succ,
    if_pos (by linarith), hm]
  rw [show (1199 : Nat) = 1198 + 1 from rfl, floorLog2F_succ, hm]
  rw [if_pos (by linarith)]
  rw [show (1198 : Nat) = 1197 + 1 from rfl, floorLog2F_succ, hm]
  rw [if_neg (by linarith), if_neg (by linarith)]
  norm_num

theorem qfloor_eq_floor (q : ℚ) : qfloor q = ⌊q⌋ := by
  unfold qfloor
  exact Rat.floor_def.symm

theorem roundHalfEven_ge {q : ℚ} {m : ℤ} (h : (m : ℚ) ≤ q) :
    m ≤ roundHalfEven q := by
  have hf : m ≤ qfloor q := by
    rw [qfloor_eq_floor]
    exact Int.le_floor.mpr h
  unfold roundHalfEven
  split_ifs <;> omega

theorem two_le_scaled {n : ℤ} {s : ℕ} (h : (2 : ℤ) * 2 ^ s ≤ n) :
    (2 : ℚ) ≤ qmul (mkRat n 1) (mkRat 1 (2 ^ s)) := by
  rw [qmul_eq, Rat.mkRat_one, Rat.mkRat_eq_div]
  push_cast
  rw [mul_one_div, le_div_iff₀ (by positivity)]
  exact_mod_cast h

theorem pyFloat_ge_two {q : ℚ} (h2 : 2 ≤ q) (h8 : q < 8) :
    (2 : ℚ) ≤ pyFloat q := by
  unfold pyFloat
  rw [if_neg (by linarith)]
  by_cases h4 : q < 4
  · rw [floorLog2_two_le h2 h4]
    rw [show ((52 : ℤ) - 1) = 51 from by decide,
      show ((1 : ℤ) - 52) = -51 from by decide,
      show qpow2 51 = ((2 ^ 51 : ℕ) : ℚ) from by decide,
      show qpow2 (-51) = mkRat 1 (2 ^ 51) from by decide]
    have hn : (2 ^ 52 : ℤ) ≤ roundHalfEven (qmul q ((2 ^ 51 : ℕ) : ℚ)) := by
      apply roundHalfEven_ge
      rw [qmul_eq]
      push_cast
      nlinarith
    refine two_le_scaled ?_
    have he : (2 : ℤ) * 2 ^ 51 = 2 ^ 52 := by norm_num
    omega
  · rw [floorLog2_four_le (not_lt.mp h4) h8]
    rw [show ((52 : ℤ) - 2) = 50 from by decide,
      show ((2 : ℤ) - 52) = -50 from by decide,
      show qpow2 50 = ((2 ^ 50 : ℕ) : ℚ) from by decide,
      show qpow2 (-50) = mkRat 1 (2 ^ 50) from by decide]
    have hn : (2 ^ 52 : ℤ) ≤ roundHalfEven (qmul q ((2 ^ 50 : ℕ) : ℚ)) := by
      apply roundHalfEven_ge
      rw [qmul_eq]
      push_cast
      nlinarith [not_lt.mp h4]
    refine two_le_scaled ?_
    have he : (2 : ℤ) * 2 ^ 50 ≤ 2 ^ 52 := by norm_num
    omega

theorem parse_accept_tagged_decomp {v : Str} {out : List (CT × Nat)}
    (h : parse_accept_tagged v false = .ok out) :
    ∃ elems hdrs tqc,
      parse_list v = .ok elems ∧
      collectHeaders false elems = .ok hdrs ∧
      assignQualitiesT (tagify hdrs) decInit = .ok tqc ∧
      out = pySortCmp acceptCmpT tqc.1 := by
  unfold parse_accept_tagged at h
  cases hpl : parse_list v with
  | error e =>
    rw [hpl] at h
    simp only [Bind.bind, Except.bind] at h
    exact Except.noConfusion h
  | ok elems =>
    rw [hpl] at h
    simp only [Bind.bind, Except.bind] at h
    cases hch : collectHeaders false elems with
    | error e => rw [hch] at h; simp at h
    | ok hdrs =>
      rw [hch] at h
      simp only [] at h
      cases hat : assignQualitiesT (tagify hdrs) decInit with
      | error e => rw [hat] at h; simp at h
      | ok tqc =>
        rw [hat] at h
        simp only [pure, Except.pure] at h
        injection h with h
        exact ⟨elems, hdrs, tqc, rfl, hch, hat, h.symm⟩

/-- C1, amended: for every Accept value whose parsed header list carries
at most `3 * 10 ^ 27` entries with an explicit `q=1.0` — enough that the
synthetic decimal counter stays at `2.00000001` or above, so its float
exceeds the default quality `1.0` — every explicit-`q=1.0` entry ranks
in the output above every entry with no `q` parameter.  (The unamended
claim's declaration-order clause is false: all counter floats collapse
to the double nearest `5.00000001`, so explicit-`q=1.0` entries tie and
are ordered by the content-type tiebreak; see the counterexample.) -/
theorem claim_c1_amended (v : Str) (hdrs0 : List CT)
    (hh : acceptHeaders v false = .ok hdrs0)
    (hcount : countExplicitOnes hdrs0 ≤ 3 * 10 ^ 27) :
    ∀ out, parse_accept_tagged v false = .ok out →
      ∀ i j hi hj, hdrs0.get? i = some hi → hdrs0.get? j = some hj →
        hasExplicitOne hi = true → hasNoQ hj = true →
        posOf i out < posOf j out := by
  intro out hout i j hi hj hgi hgj hxi hxj
  obtain ⟨elems, hdrs1, tqc, hpl, hch, hat, houteq⟩ :=
    parse_accept_tagged_decomp hout
  have hd1 : hdrs0 = hdrs1 := by
    unfold acceptHeaders at hh
    simp only [Bind.bind, Except.bind] at hh
    rw [hpl] at hh
    simp only [] at hh
    rw [hch] at hh
    injection hh with hh
    exact hh.symm
  subst hd1
  obtain ⟨hlen, hall⟩ :=
    assignQualitiesT_char (tagify hdrs0) decInit tqc.1 tqc.2 (by rw [hat])
  have hmapsnd : tqc.1.map Prod.snd = (tagify hdrs0).map Prod.snd := by
    apply List.ext
    intro k
    rw [List.get?_map, List.get?_map]
    cases hx : (tagify hdrs0).get? k with
    | none =>
      have hnone : tqc.1.get? k = none := by
        rw [List.get?_eq_none] at hx ⊢
        rw [hlen]
        exact hx
      rw [hnone]
    | some x =>
      obtain ⟨ct, hget, _, _⟩ := hall k x hx
      rw [hget]
      rfl
  have hnodup : (out.map Prod.snd).Nodup := by
    have hperm := (pySortCmp_perm acceptCmpT tqc.1).map Prod.snd
    rw [← houteq] at hperm
    rw [hperm.nodup_iff, hmapsnd]
    show ((tagifyFrom 0 hdrs0).map Prod.snd).Nodup
    rw [tagifyFrom_map_snd]
    exact List.nodup_range' 0 hdrs0.length
  have hidx : ∀ k hk, hdrs0.get? k = some hk →
      ∃ ct, (ct, k) ∈ out ∧
        (hasNoQ hk = true → ct.quality = some 1) ∧
        (hasExplicitOne hk = true →
          ct.quality =
            some (pyFloat
              ((Dec.nextMinus^[countExplicitOnes (hdrs0.take k)])
                decInit).val)) := by
    intro k hk hget
    have htag : (tagify hdrs0).get? k = some (hk, k) := by
      unfold tagify
      rw [tagifyFrom_get? 0 hdrs0 k, hget]
      simp
    obtain ⟨ct, hq, hno, hex⟩ := hall k (hk, k) htag
    have hcnt : explicitCount ((tagify hdrs0).take k) =
        countExplicitOnes (hdrs0.take k) := by
      unfold tagify
      rw [tagifyFrom_take, explicitCount_tagifyFrom]
    refine ⟨ct, ?_, hno, fun hx => ?_⟩
    · have hm : (ct, (hk, k).2) ∈ tqc.1 := List.get?_mem hq
      have hperm : out.Perm tqc.1 := by
        rw [houteq]
        exact pySortCmp_perm _ _
      exact hperm.mem_iff.mpr hm
    · rw [hex hx, hcnt]
  obtain ⟨ci, hmi, _, hexi⟩ := hidx i hi hgi
  obtain ⟨cj, hmj, hnoj, _⟩ := hidx j hj hgj
  have hqi := hexi hxi
  have hqj := hnoj hxj
  have hcnti : countExplicitOnes (hdrs0.take i) < countExplicitOnes hdrs0 :=
    countTake_lt hgi hxi
  obtain ⟨hv2, hv8⟩ :=
    @counterVal_bounds (countExplicitOnes (hdrs0.take i)) (by omega)
  have hQi : (2 : ℚ) ≤ qualityOf ci := by
    unfold qualityOf
    rw [hqi]
    simp only [Option.getD_some]
    exact pyFloat_ge_two hv2 hv8
  have hQj : qualityOf cj = 1 := by
    unfold qualityOf
    rw [hqj]
    rfl
  have hlt : qualityOf cj < qualityOf ci := by
    rw [hQj]
    linarith
  have hne : i ≠ j := by
    intro he
    subst he
    rw [hgi] at hgj
    injection hgj with hgj
    rw [← hgj] at hxj
    unfold hasExplicitOne at hxi
    unfold hasNoQ at hxj
    rw [decide_eq_true_eq] at hxi hxj
    rw [hxj] at hxi
    exact Option.noConfusion hxi
  exact posOf_lt_of_qual_lt houteq hnodup hmi hmj hne hlt

/-- Witness for the amended C1 at `a/a;q=1.0, z/z`: one explicit
`q=1.0` entry, well under the counter bound, and the explicit entry
ranks above the `q`-less one. -/
theorem claim_c1_witness :
    acceptHeaders (pstr "a/a;q=1.0, z/z") false = .ok [ctaRaw, ctzRaw] ∧
    countExplicitOnes [ctaRaw, ctzRaw] ≤ 3 * 10 ^ 27 ∧
    (∀ out, parse_accept_tagged (pstr "a/a;q=1.0, z/z") false = .ok out →
      ∀ i j hi hj, List.get? [ctaRaw, ctzRaw] i = some hi →
        List.get? [ctaRaw, ctzRaw] j = some hj →
        hasExplicitOne hi = true → hasNoQ hj = true →
        posOf i out < posOf j out) :=
  ⟨by decide, by decide,
    claim_c1_amended (pstr "a/a;q=1.0, z/z") [ctaRaw, ctzRaw]
      (by decide) (by decide)⟩

/-- Counterexample to C1 as stated: at `a/a;q=1.0, z/z;q=1.0` both
explicit-`q=1.0` entries receive the same float quality (every counter
value's double collapses to `5629499545472119 / 2 ^ 50`), the comparator
falls through to the content-type tiebreak, and the output is
`[z/z, a/a]` — the explicit entries do not keep declaration order. -/
theorem claim_c1_counterexample : ¬ ∀ v, ClaimC1At v := by
  intro hall
  obtain ⟨_, h2⟩ := hall (pstr "a/a;q=1.0, z/z;q=1.0")
    [(⟨pstr "z", pstr "z", [], none,
        some (mkRat 5629499545472119 1125899906842624)⟩, 1),
     (⟨pstr "a", pstr "a", [], none,
        some (mkRat 5629499545472119 1125899906842624)⟩, 0)]
    [ctaRaw, ctzOneRaw] (by decide) (by decide)
  have hlt := h2 0 1 ctaRaw ctzOneRaw (by decide) (by decide) (by decide)
    (by decide) (by decide)
  exact absurd hlt (by decide)

end Ietf
